import Mathlib

/-!
Verification of the protoc-gen-zod compiler core
(repository: DigitalKin-ai/agentic-mesh-protocol).

Shallow embedding of the four source files:
  * src/tools/zod/src/utils.ts          (naming / path utilities)
  * src/unnamed/part_000                (type-mapper.ts: proto field -> Zod base expression)
  * src/index.ts (validation-mapper.ts) (buf.validate annotation -> validation chain)
  * src/tools/zod/src/generator.ts      (field rendering and message dependency resolution)

Strings are modelled by Lean `String` (JS strings over the ASCII identifiers the
compiler actually handles); JS `bigint` constraint values are modelled by `Int`;
JS float constants are carried opaquely as their source-text rendering.
The TS discriminated unions (`fieldKind`/`listKind`/`mapKind`, the buf.validate
`type` oneof) are modelled as Lean inductives with one constructor per arm that
the source dispatches on, plus a constructor for the arms the source ignores.
-/

/-! ## utils.ts -/

/-- `toCamelCase` from utils.ts: `name.replace(/_([a-z])/g, (_, l) => l.toUpperCase())`.
The regex scan is left-to-right and non-overlapping; each match consumes the
underscore and the following ASCII lowercase letter. -/
def toCamelCaseList : List Char → List Char
  | '_' :: c :: rest =>
      if c.isLower then c.toUpper :: toCamelCaseList rest
      else '_' :: toCamelCaseList (c :: rest)
  | c :: rest => c :: toCamelCaseList rest
  | [] => []

def toCamelCase (name : String) : String :=
  String.mk (toCamelCaseList name.data)

/-- `toSchemaName` from utils.ts. -/
def toSchemaName (messageName : String) : String :=
  messageName ++ "Schema"

/-- First regex pass of `toScreamingSnakeCase`:
`replace(/([a-z])([A-Z])/g, "$1_$2")` (ASCII classes, global, non-overlapping;
the two-character match is fully consumed before the scan continues). -/
def sscPass1 : List Char → List Char
  | a :: b :: rest =>
      if a.isLower && b.isUpper then a :: '_' :: b :: sscPass1 rest
      else a :: sscPass1 (b :: rest)
  | l => l

/-- Second regex pass of `toScreamingSnakeCase`:
`replace(/([A-Z])([A-Z][a-z])/g, "$1_$2")` (three characters matched,
all three kept with an underscore after the first). -/
def sscPass2 : List Char → List Char
  | a :: b :: c :: rest =>
      if a.isUpper && b.isUpper && c.isLower then a :: '_' :: b :: c :: sscPass2 rest
      else a :: sscPass2 (b :: c :: rest)
  | l => l

/-- `toScreamingSnakeCase` from utils.ts: the two regex passes followed by
`toUpperCase()` (ASCII case mapping). -/
def toScreamingSnakeCase (name : String) : String :=
  String.mk (((sscPass2 (sscPass1 name.data)).map Char.toUpper))

/-- `stripEnumPrefix` from utils.ts: `valueName.startsWith(prefix)` then
`valueName.slice(prefix.length)` (character-level, as in JS). -/
def stripEnumPrefix (valueName : String) (enumName : String) : String :=
  let pre := toScreamingSnakeCase enumName ++ "_"
  if pre.data.isPrefixOf valueName.data then
    String.mk (valueName.data.drop pre.length)
  else
    valueName

/-- `getRelativeImportPath` from utils.ts. -/
def commonPrefixLen : List String → List String → Nat
  | a :: as, b :: bs => if a = b then commonPrefixLen as bs + 1 else 0
  | _, _ => 0

def getRelativeImportPath (fromProtoPath toProtoPath suffix : String) : String :=
  let fromDir := String.intercalate "/" ((fromProtoPath.splitOn "/").dropLast)
  let toDir := String.intercalate "/" ((toProtoPath.splitOn "/").dropLast)
  let toBaseName := ((toProtoPath.splitOn "/").getLast?).getD ""
  if fromDir = toDir then
    "./" ++ toBaseName ++ suffix
  else
    let fromParts := (fromDir.splitOn "/").filter (· ≠ "")
    let toParts := (toDir.splitOn "/").filter (· ≠ "")
    let commonLength := commonPrefixLen fromParts toParts
    let upCount := fromParts.length - commonLength
    let downPath := toParts.drop commonLength
    let relativeParts := List.replicate upCount ".." ++ downPath ++ [toBaseName ++ suffix]
    let joined := String.intercalate "/" relativeParts
    if joined = "" then "./" ++ toBaseName ++ suffix else joined

/-! ## Descriptor model (the read-only input collaborator) -/

/-- Protobuf scalar types, as in `ScalarType` of @bufbuild/protobuf
(a closed enum; the TS `default` arms guarding against values outside it
are unreachable and therefore not modelled). -/
inductive ScalarType
  | DOUBLE | FLOAT | INT64 | UINT64 | INT32 | FIXED64 | FIXED32
  | BOOL | STRING | BYTES | UINT32 | SFIXED32 | SFIXED64 | SINT32 | SINT64
deriving DecidableEq, Repr

/-- The slice of `DescEnum` the compiler reads for a field's enum reference:
`enumDesc.name` and `enumDesc.file.name`. -/
structure EnumRef where
  name : String
  fileName : String
deriving DecidableEq, Repr

/-- The slice of `DescMessage` the compiler reads for a field's message
reference: `msgDesc.name`, `msgDesc.typeName`, `msgDesc.file.name`. -/
structure MsgRef where
  name : String
  typeName : String
  fileName : String
deriving DecidableEq, Repr

/-- `field.fieldKind` / `field.listKind` / `field.mapKind` discriminated union,
flattened: one constructor per shape the source dispatches on. -/
inductive MapValueKind
  | scalar (s : ScalarType)
  | enum (e : EnumRef)
  | message (m : MsgRef)
deriving DecidableEq, Repr

inductive FieldShape
  | scalar (s : ScalarType)
  | enum (e : EnumRef)
  | message (m : MsgRef)
  | listScalar (s : ScalarType)
  | listEnum (e : EnumRef)
  | listMessage (m : MsgRef)
  | map (key : ScalarType) (value : MapValueKind)
deriving DecidableEq, Repr

/-! ### buf.validate constraint payload (validation-mapper.ts reads these) -/

/-- buf.validate StringRules, restricted to the members validation-mapper.ts
reads. Length bounds are JS bigints (`Int` here), absent members are `none`.
The TS truthiness tests `if (constraints.pattern)` etc. treat the empty string
like an absent member; both are modelled separately so the guard is explicit.
`prefixStr` models the source member `prefix` (a Lean keyword). -/
structure StringRules where
  minLen : Option Int := none
  maxLen : Option Int := none
  len : Option Int := none
  pattern : Option String := none
  prefixStr : Option String := none
  suffix : Option String := none
  contains : Option String := none
  wellKnown : Option (String × Bool) := none
deriving DecidableEq, Repr

structure BytesRules where
  minLen : Option Int := none
  maxLen : Option Int := none
deriving DecidableEq, Repr

/-- The `greaterThan` / `lessThan` oneofs of the numeric rule families. -/
inductive GtRule (α : Type) | gt (v : α) | gte (v : α)
deriving DecidableEq, Repr

inductive LtRule (α : Type) | lt (v : α) | lte (v : α)
deriving DecidableEq, Repr

/-- 32-bit integer family rules (Int32Rules, UInt32Rules, ...): values are
JS bigints/numbers rendered through `Number(...)`, modelled as `Int`.
`inVals` models the source member `in` (a Lean keyword). -/
structure NumericRules where
  greaterThan : Option (GtRule Int) := none
  lessThan : Option (LtRule Int) := none
  constVal : Option Int := none
  inVals : List Int := []
  notIn : List Int := []
deriving DecidableEq, Repr

/-- 64-bit integer family rules: same shape, but rendered as bigint literals
(`5n`) against string-encoded runtime values. -/
structure Int64Rules where
  greaterThan : Option (GtRule Int) := none
  lessThan : Option (LtRule Int) := none
  constVal : Option Int := none
  inVals : List Int := []
  notIn : List Int := []
deriving DecidableEq, Repr

/-- Float/double rules: the constraint constants are JS doubles interpolated
directly into the generated text, so they are carried opaquely as their
source-text rendering. -/
structure FloatRules where
  greaterThan : Option (GtRule String) := none
  lessThan : Option (LtRule String) := none
  finite : Bool := false
deriving DecidableEq, Repr

structure BoolRules where
  constVal : Option Bool := none
deriving DecidableEq, Repr

structure EnumRules where
  definedOnly : Bool := false
  inVals : List Int := []
  notIn : List Int := []
deriving DecidableEq, Repr

/-- The `repeated.items.type` oneof, restricted to the arms
`processRepeatedConstraints` dispatches on; every other arm falls through
the TS `switch` (no default) and is represented by `otherItem`. -/
inductive ItemConstraintType
  | string (r : StringRules)
  | enum (r : EnumRules)
  | int32 (r : NumericRules) | uint32 (r : NumericRules) | sint32 (r : NumericRules)
  | fixed32 (r : NumericRules) | sfixed32 (r : NumericRules)
  | int64 (r : Int64Rules) | uint64 (r : Int64Rules) | sint64 (r : Int64Rules)
  | fixed64 (r : Int64Rules) | sfixed64 (r : Int64Rules)
  | otherItem
deriving DecidableEq, Repr

structure RepeatedRules where
  minItems : Option Int := none
  maxItems : Option Int := none
  unique : Bool := false
  /-- `constraints.items` with its `type` oneof (`items && items.type`). -/
  items : Option ItemConstraintType := none
deriving DecidableEq, Repr

structure MapRules where
  minPairs : Option Int := none
  maxPairs : Option Int := none
deriving DecidableEq, Repr

/-- The `type` oneof of buf.validate FieldConstraints, one constructor per arm
of the `switch (type.case)` in `getValidationChain`; arms the switch ignores
(duration, timestamp, any, ...) are `otherType`. -/
inductive ConstraintType
  | string (r : StringRules)
  | bytes (r : BytesRules)
  | int32 (r : NumericRules) | uint32 (r : NumericRules) | sint32 (r : NumericRules)
  | fixed32 (r : NumericRules) | sfixed32 (r : NumericRules)
  | int64 (r : Int64Rules) | uint64 (r : Int64Rules) | sint64 (r : Int64Rules)
  | fixed64 (r : Int64Rules) | sfixed64 (r : Int64Rules)
  | float (r : FloatRules) | double (r : FloatRules)
  | bool (r : BoolRules)
  | enum (r : EnumRules)
  | repeated (r : RepeatedRules)
  | map (r : MapRules)
  | otherType
deriving DecidableEq, Repr

/-- Decoded buf.validate FieldConstraints (`{required?, type?}`). -/
structure FieldConstraints where
  required : Bool := false
  type : Option ConstraintType := none
deriving DecidableEq, Repr

abbrev DecodeError := String

instance exceptDecEq {ε α : Type} [DecidableEq ε] [DecidableEq α] : DecidableEq (Except ε α)
  | .ok a, .ok b =>
      if h : a = b then .isTrue (by rw [h]) else .isFalse (fun hh => h (Except.ok.inj hh))
  | .ok _, .error _ => .isFalse (fun hh => Except.noConfusion hh)
  | .error _, .ok _ => .isFalse (fun hh => Except.noConfusion hh)
  | .error e, .error f =>
      if h : e = f then .isTrue (by rw [h]) else .isFalse (fun hh => h (Except.error.inj hh))

/-- The slice of `DescField` the compiler reads.  `annotation` models the
buf.validate extension lookup on `field.proto.options`:
`none` covers both "no options" and "extension absent" (identical early
returns in the source); `some (.error e)` models `getExtension` throwing
(extension not fully decodable); `some (.ok c)` a successful decode. -/
structure DescField where
  name : String
  shape : FieldShape
  proto3Optional : Bool := false
  annotation : Option (Except DecodeError FieldConstraints) := none
  deprecated : Bool := false
deriving DecidableEq, Repr

/-- The slice of `DescMessage` the dependency resolver and field renderer read. -/
structure DescMessage where
  name : String
  fields : List DescField
deriving DecidableEq, Repr

/-! ## type-mapper.ts (src/unnamed/part_000) -/

structure TypeMapperContext where
  currentProtoPath : String
deriving DecidableEq, Repr

/-- `needsImport` record; `fromPath` models the source member `from`
(a Lean keyword). -/
structure ImportReq where
  name : String
  fromPath : String
deriving DecidableEq, Repr

structure ZodTypeInfo where
  zodType : String
  needsImport : Option ImportReq := none
  isNestedMessage : Bool := false
deriving DecidableEq, Repr

/-- `mapScalarToZod` from type-mapper.ts.  The TS `default` arm returning
`"z.unknown()"` is unreachable (ScalarType is a closed enum) and not modelled. -/
def mapScalarToZod : ScalarType → String
  | .STRING => "z.string()"
  | .BOOL => "z.boolean()"
  | .INT32 | .SINT32 | .SFIXED32 => "z.number().int()"
  | .UINT32 | .FIXED32 => "z.number().int().nonnegative()"
  | .INT64 | .SINT64 | .SFIXED64 => "z.string()"
  | .UINT64 | .FIXED64 => "z.string()"
  | .FLOAT | .DOUBLE => "z.number()"
  | .BYTES => "z.instanceof(Uint8Array)"

/-- `mapEnumToZod` from type-mapper.ts. -/
def mapEnumToZod (enumDesc : EnumRef) (context : TypeMapperContext) : ZodTypeInfo :=
  let enumName := enumDesc.name
  let enumProtoPath := enumDesc.fileName
  let relPath := getRelativeImportPath context.currentProtoPath enumProtoPath ".js"
  { zodType := "z.enum(" ++ enumName ++ ")",
    needsImport := some { name := enumName, fromPath := relPath } }

/-- `mapMessageToZod` from type-mapper.ts. -/
def mapMessageToZod (msgDesc : MsgRef) (context : TypeMapperContext) : ZodTypeInfo :=
  let typeName := msgDesc.typeName
  if typeName = "google.protobuf.Timestamp" then { zodType := "z.coerce.date()" }
  else if typeName = "google.protobuf.Duration" then { zodType := "z.string()" }
  else if typeName = "google.protobuf.Any" then { zodType := "z.unknown()" }
  else if typeName = "google.protobuf.Struct" then { zodType := "z.record(z.string(), z.any())" }
  else if typeName = "google.protobuf.Value" then { zodType := "z.any()" }
  else if typeName = "google.protobuf.ListValue" then { zodType := "z.array(z.any())" }
  else if typeName = "google.protobuf.Empty" then { zodType := "z.object(\x7b\x7d)" }
  else if typeName = "google.protobuf.StringValue" then { zodType := "z.string()" }
  else if typeName = "google.protobuf.Int32Value" ∨ typeName = "google.protobuf.Int64Value" then
    { zodType := "z.number().int()" }
  else if typeName = "google.protobuf.UInt32Value" ∨ typeName = "google.protobuf.UInt64Value" then
    { zodType := "z.number().int().nonnegative()" }
  else if typeName = "google.protobuf.FloatValue" ∨ typeName = "google.protobuf.DoubleValue" then
    { zodType := "z.number()" }
  else if typeName = "google.protobuf.BoolValue" then { zodType := "z.boolean()" }
  else if typeName = "google.protobuf.BytesValue" then { zodType := "z.instanceof(Uint8Array)" }
  else
    let schemaName := toSchemaName msgDesc.name
    let msgProtoPath := msgDesc.fileName
    if msgProtoPath = context.currentProtoPath then
      { zodType := schemaName, isNestedMessage := true }
    else
      let relPath := getRelativeImportPath context.currentProtoPath msgProtoPath "_zod.js"
      { zodType := schemaName, isNestedMessage := true,
        needsImport := some { name := schemaName, fromPath := relPath } }

/-- `mapListItemToZod` from type-mapper.ts (the trailing
`return { zodType: "z.unknown()" }` is unreachable for the closed listKind
union and not modelled). -/
def mapListItemToZod (shape : FieldShape) (context : TypeMapperContext) : ZodTypeInfo :=
  match shape with
  | .listScalar s => { zodType := mapScalarToZod s }
  | .listEnum e => mapEnumToZod e context
  | .listMessage m => mapMessageToZod m context
  | _ => { zodType := "z.unknown()" }

/-- `mapMapFieldToZod` from type-mapper.ts. -/
def mapMapFieldToZod (key : ScalarType) (value : MapValueKind)
    (context : TypeMapperContext) : ZodTypeInfo :=
  let keyType := mapScalarToZod key
  let valueType :=
    match value with
    | .scalar s => { zodType := mapScalarToZod s : ZodTypeInfo }
    | .enum e => mapEnumToZod e context
    | .message m => mapMessageToZod m context
  { zodType := "z.record(" ++ keyType ++ ", " ++ valueType.zodType ++ ")",
    needsImport := valueType.needsImport }

/-- `mapSingleFieldToZod` from type-mapper.ts (the `default` arm is
unreachable after `mapFieldToZod` has peeled off map and list shapes). -/
def mapSingleFieldToZod (field : DescField) (context : TypeMapperContext) : ZodTypeInfo :=
  match field.shape with
  | .scalar s => { zodType := mapScalarToZod s }
  | .enum e => mapEnumToZod e context
  | .message m => mapMessageToZod m context
  | _ => { zodType := "z.unknown()" }

/-- `mapFieldToZod` from type-mapper.ts. -/
def mapFieldToZod (field : DescField) (context : TypeMapperContext) : ZodTypeInfo :=
  match field.shape with
  | .map k v => mapMapFieldToZod k v context
  | .listScalar _ | .listEnum _ | .listMessage _ =>
      let itemType := mapListItemToZod field.shape context
      { zodType := "z.array(" ++ itemType.zodType ++ ")",
        needsImport := itemType.needsImport }
  | _ => mapSingleFieldToZod field context

/-- `isFieldOptional` from type-mapper.ts. -/
def isFieldOptional (field : DescField) : Bool :=
  match field.shape with
  | .scalar _ | .enum _ => true
  | _ =>
    if field.proto3Optional then true
    else match field.shape with
      | .message _ => true
      | .listScalar _ | .listEnum _ | .listMessage _ | .map _ _ => true
      | _ => false

/-! ## validation-mapper.ts (concatenated into src/index.ts) -/

/-- `ValidationChain` record from validation-mapper.ts. -/
structure ValidationChain where
  methods : List String := []
  required : Bool := false
  enumDefinedOnly : Bool := false
  itemMethods : List String := []
  itemEnumNotIn : List Int := []
  stringPattern : Option String := none
  itemStringPattern : Option String := none
deriving DecidableEq, Repr

/-- The freshly initialised chain `getValidationChain` starts from (and returns
unchanged on every early-exit and error path). -/
def emptyChain : ValidationChain := {}

/-- JS truthiness for an optional string member (`if (constraints.pattern)`,
`if (constraints.prefix)`, ...): `undefined` and `""` are both falsy. -/
def strTruthy (o : Option String) : Option String :=
  match o with
  | some s => if s = "" then none else some s
  | none => none

/-- `chain.methods.push(m)`. -/
def pushMethod (chain : ValidationChain) (m : String) : ValidationChain :=
  { chain with methods := chain.methods ++ [m] }

/-- Renders an `Int` the way the source renders `Number(v)` / a bigint template
interpolation for the integral constraint values it handles. -/
def intStr (v : Int) : String := toString v

def joinInts (l : List Int) : String := String.intercalate ", " (l.map intStr)

/-- `processStringConstraints` from validation-mapper.ts is a sequence of
independent if-blocks mutating `chain`; each block is modelled as one named
step below and the function is their composition in source order. -/
def stringStepMinLen (constraints : StringRules) (chain : ValidationChain) : ValidationChain :=
  match constraints.minLen with
  | some v => if v > 0 then pushMethod chain s!".min({v})" else chain
  | none => chain

def stringStepMaxLen (constraints : StringRules) (chain : ValidationChain) : ValidationChain :=
  match constraints.maxLen with
  | some v => if v > 0 then pushMethod chain s!".max({v})" else chain
  | none => chain

def stringStepLen (constraints : StringRules) (chain : ValidationChain) : ValidationChain :=
  match constraints.len with
  | some v => if v > 0 then pushMethod chain s!".length({v})" else chain
  | none => chain

/-- The pattern block: stored in the dedicated `stringPattern` slot, never
appended to `methods`. -/
def stringStepPattern (constraints : StringRules) (chain : ValidationChain) : ValidationChain :=
  match strTruthy constraints.pattern with
  | some p => { chain with stringPattern := some p }
  | none => chain

def stringStepPrefix (constraints : StringRules) (chain : ValidationChain) : ValidationChain :=
  match strTruthy constraints.prefixStr with
  | some p => pushMethod chain s!".startsWith(\"{p}\")"
  | none => chain

def stringStepSuffix (constraints : StringRules) (chain : ValidationChain) : ValidationChain :=
  match strTruthy constraints.suffix with
  | some p => pushMethod chain s!".endsWith(\"{p}\")"
  | none => chain

def stringStepContains (constraints : StringRules) (chain : ValidationChain) : ValidationChain :=
  match strTruthy constraints.contains with
  | some p => pushMethod chain s!".includes(\"{p}\")"
  | none => chain

def stringStepWellKnown (constraints : StringRules) (chain : ValidationChain) : ValidationChain :=
  match constraints.wellKnown with
  | some wk =>
      if wk.1 = "email" then
        if wk.2 then pushMethod chain ".email()" else chain
      else if wk.1 = "hostname" then
        if wk.2 then pushMethod chain ".regex(/^[a-zA-Z0-9][a-zA-Z0-9-]*$/)" else chain
      else if wk.1 = "ip" then
        if wk.2 then pushMethod chain ".ip()" else chain
      else if wk.1 = "ipv4" then
        if wk.2 then pushMethod chain ".ip(\x7b version: \"v4\" \x7d)" else chain
      else if wk.1 = "ipv6" then
        if wk.2 then pushMethod chain ".ip(\x7b version: \"v6\" \x7d)" else chain
      else if wk.1 = "uri" then
        if wk.2 then pushMethod chain ".url()" else chain
      else if wk.1 = "uuid" then
        if wk.2 then pushMethod chain ".uuid()" else chain
      else chain
  | none => chain

def processStringConstraints (constraints : StringRules) (chain : ValidationChain) :
    ValidationChain :=
  stringStepWellKnown constraints
    (stringStepContains constraints
      (stringStepSuffix constraints
        (stringStepPrefix constraints
          (stringStepPattern constraints
            (stringStepLen constraints
              (stringStepMaxLen constraints
                (stringStepMinLen constraints chain)))))))

/-- `processBytesConstraints` from validation-mapper.ts. -/
def processBytesConstraints (constraints : BytesRules) (chain : ValidationChain) :
    ValidationChain :=
  let chain :=
    match constraints.minLen with
    | some v =>
        if v > 0 then
          { chain with methods := chain.methods ++
              [s!".refine((b) => b.length >= {v}, \x7b message: \"Bytes must be at least {v} bytes\" \x7d)"] }
        else chain
    | none => chain
  match constraints.maxLen with
  | some v =>
      if v > 0 then
        { chain with methods := chain.methods ++
            [s!".refine((b) => b.length <= {v}, \x7b message: \"Bytes must be at most {v} bytes\" \x7d)"] }
      else chain
  | none => chain

/-- `processNumericConstraints` from validation-mapper.ts (32-bit families). -/
def processNumericConstraints (constraints : NumericRules) (chain : ValidationChain) :
    ValidationChain :=
  let chain :=
    match constraints.greaterThan with
    | some (.gt v) => { chain with methods := chain.methods ++ [s!".gt({v})"] }
    | some (.gte v) => { chain with methods := chain.methods ++ [s!".gte({v})"] }
    | none => chain
  let chain :=
    match constraints.lessThan with
    | some (.lt v) => { chain with methods := chain.methods ++ [s!".lt({v})"] }
    | some (.lte v) => { chain with methods := chain.methods ++ [s!".lte({v})"] }
    | none => chain
  let chain :=
    match constraints.constVal with
    | some c =>
        if c ≠ 0 then
          { chain with methods := chain.methods ++
              [s!".refine((n) => n === {c}, \x7b message: \"Must equal {c}\" \x7d)"] }
        else chain
    | none => chain
  let chain :=
    if constraints.inVals.length > 0 then
      let values := joinInts constraints.inVals
      { chain with methods := chain.methods ++
          [s!".refine((n) => [{values}].includes(n), \x7b message: \"Must be one of: {values}\" \x7d)"] }
    else chain
  if constraints.notIn.length > 0 then
    let values := joinInts constraints.notIn
    { chain with methods := chain.methods ++
        [s!".refine((n) => ![{values}].includes(n), \x7b message: \"Must not be one of: {values}\" \x7d)"] }
  else chain

/-- `processInt64Constraints` from validation-mapper.ts (64-bit families,
string-encoded at runtime, compared through BigInt parsing). -/
def processInt64Constraints (constraints : Int64Rules) (chain : ValidationChain) :
    ValidationChain :=
  let chain :=
    match constraints.greaterThan with
    | some (.gt v) =>
        { chain with methods := chain.methods ++
            [s!".refine((s) => BigInt(s) > {v}n, \x7b message: \"Must be > {v}\" \x7d)"] }
    | some (.gte v) =>
        { chain with methods := chain.methods ++
            [s!".refine((s) => BigInt(s) >= {v}n, \x7b message: \"Must be >= {v}\" \x7d)"] }
    | none => chain
  let chain :=
    match constraints.lessThan with
    | some (.lt v) =>
        { chain with methods := chain.methods ++
            [s!".refine((s) => BigInt(s) < {v}n, \x7b message: \"Must be < {v}\" \x7d)"] }
    | some (.lte v) =>
        { chain with methods := chain.methods ++
            [s!".refine((s) => BigInt(s) <= {v}n, \x7b message: \"Must be <= {v}\" \x7d)"] }
    | none => chain
  let chain :=
    match constraints.constVal with
    | some c =>
        if c ≠ 0 then
          { chain with methods := chain.methods ++
              [s!".refine((s) => BigInt(s) === {c}n, \x7b message: \"Must equal {c}\" \x7d)"] }
        else chain
    | none => chain
  let chain :=
    if constraints.inVals.length > 0 then
      let values := String.intercalate ", " (constraints.inVals.map (fun v => s!"{v}n"))
      let msgVals := joinInts constraints.inVals
      { chain with methods := chain.methods ++
          [s!".refine((s) => [{values}].includes(BigInt(s)), \x7b message: \"Must be one of: {msgVals}\" \x7d)"] }
    else chain
  if constraints.notIn.length > 0 then
    let values := String.intercalate ", " (constraints.notIn.map (fun v => s!"{v}n"))
    let msgVals := joinInts constraints.notIn
    { chain with methods := chain.methods ++
        [s!".refine((s) => ![{values}].includes(BigInt(s)), \x7b message: \"Must not be one of: {msgVals}\" \x7d)"] }
  else chain

/-- `processFloatConstraints` from validation-mapper.ts (constants interpolated
verbatim; carried as their rendering). -/
def processFloatConstraints (constraints : FloatRules) (chain : ValidationChain) :
    ValidationChain :=
  let chain :=
    match constraints.greaterThan with
    | some (.gt v) => { chain with methods := chain.methods ++ [s!".gt({v})"] }
    | some (.gte v) => { chain with methods := chain.methods ++ [s!".gte({v})"] }
    | none => chain
  let chain :=
    match constraints.lessThan with
    | some (.lt v) => { chain with methods := chain.methods ++ [s!".lt({v})"] }
    | some (.lte v) => { chain with methods := chain.methods ++ [s!".lte({v})"] }
    | none => chain
  if constraints.finite then { chain with methods := chain.methods ++ [".finite()"] } else chain

/-- `processBoolConstraints` from validation-mapper.ts.  Note: the guard is
`!== undefined`, so a `false` constant (the proto3 default) still emits a
refinement — the one asymmetry with the zero-suppression used elsewhere. -/
def processBoolConstraints (constraints : BoolRules) (chain : ValidationChain) :
    ValidationChain :=
  match constraints.constVal with
  | some c =>
      { chain with methods := chain.methods ++
          [s!".refine((b) => b === {c}, \x7b message: \"Must be {c}\" \x7d)"] }
  | none => chain

/-- `processEnumConstraints` from validation-mapper.ts. -/
def processEnumConstraints (constraints : EnumRules) (chain : ValidationChain) :
    ValidationChain :=
  let chain :=
    if constraints.definedOnly then { chain with enumDefinedOnly := true } else chain
  let chain :=
    if constraints.inVals.length > 0 then
      let values := joinInts constraints.inVals
      { chain with methods := chain.methods ++
          [s!".refine((e) => [{values}].includes(e), \x7b message: \"Must be one of: {values}\" \x7d)"] }
    else chain
  if constraints.notIn.length > 0 then
    let values := joinInts constraints.notIn
    { chain with methods := chain.methods ++
        [s!".refine((e) => ![{values}].includes(e), \x7b message: \"Must not be one of: {values}\" \x7d)"] }
  else chain

/-- `processStringItemConstraints` from validation-mapper.ts (item-level slots). -/
def processStringItemConstraints (constraints : StringRules) (chain : ValidationChain) :
    ValidationChain :=
  let chain :=
    match constraints.minLen with
    | some v => if v > 0 then { chain with itemMethods := chain.itemMethods ++ [s!".min({v})"] } else chain
    | none => chain
  let chain :=
    match constraints.maxLen with
    | some v => if v > 0 then { chain with itemMethods := chain.itemMethods ++ [s!".max({v})"] } else chain
    | none => chain
  let chain :=
    match strTruthy constraints.pattern with
    | some p => { chain with itemStringPattern := some p }
    | none => chain
  let chain :=
    match strTruthy constraints.prefixStr with
    | some p => { chain with itemMethods := chain.itemMethods ++ [s!".startsWith(\"{p}\")"] }
    | none => chain
  let chain :=
    match strTruthy constraints.suffix with
    | some p => { chain with itemMethods := chain.itemMethods ++ [s!".endsWith(\"{p}\")"] }
    | none => chain
  match constraints.wellKnown with
  | some wk =>
      if wk.1 = "email" then
        if wk.2 then { chain with itemMethods := chain.itemMethods ++ [".email()"] } else chain
      else if wk.1 = "uuid" then
        if wk.2 then { chain with itemMethods := chain.itemMethods ++ [".uuid()"] } else chain
      else if wk.1 = "uri" then
        if wk.2 then { chain with itemMethods := chain.itemMethods ++ [".url()"] } else chain
      else if wk.1 = "ip" then
        if wk.2 then { chain with itemMethods := chain.itemMethods ++ [".ip()"] } else chain
      else if wk.1 = "ipv4" then
        if wk.2 then { chain with itemMethods := chain.itemMethods ++ [".ip(\x7b version: \"v4\" \x7d)"] } else chain
      else if wk.1 = "ipv6" then
        if wk.2 then { chain with itemMethods := chain.itemMethods ++ [".ip(\x7b version: \"v6\" \x7d)"] } else chain
      else chain
  | none => chain

/-- `processEnumItemConstraints` from validation-mapper.ts (note: assignment,
not append, to `itemEnumNotIn`). -/
def processEnumItemConstraints (constraints : EnumRules) (chain : ValidationChain) :
    ValidationChain :=
  if constraints.notIn.length > 0 then { chain with itemEnumNotIn := constraints.notIn }
  else chain

/-- `processNumericItemConstraints` from validation-mapper.ts. -/
def processNumericItemConstraints (constraints : NumericRules) (chain : ValidationChain) :
    ValidationChain :=
  let chain :=
    match constraints.greaterThan with
    | some (.gt v) => { chain with itemMethods := chain.itemMethods ++ [s!".gt({v})"] }
    | some (.gte v) => { chain with itemMethods := chain.itemMethods ++ [s!".gte({v})"] }
    | none => chain
  match constraints.lessThan with
  | some (.lt v) => { chain with itemMethods := chain.itemMethods ++ [s!".lt({v})"] }
  | some (.lte v) => { chain with itemMethods := chain.itemMethods ++ [s!".lte({v})"] }
  | none => chain

/-- `processInt64ItemConstraints` from validation-mapper.ts. -/
def processInt64ItemConstraints (constraints : Int64Rules) (chain : ValidationChain) :
    ValidationChain :=
  let chain :=
    match constraints.greaterThan with
    | some (.gt v) =>
        { chain with itemMethods := chain.itemMethods ++
            [s!".refine((s) => BigInt(s) > {v}n, \x7b message: \"Must be > {v}\" \x7d)"] }
    | some (.gte v) =>
        { chain with itemMethods := chain.itemMethods ++
            [s!".refine((s) => BigInt(s) >= {v}n, \x7b message: \"Must be >= {v}\" \x7d)"] }
    | none => chain
  match constraints.lessThan with
  | some (.lt v) =>
      { chain with itemMethods := chain.itemMethods ++
          [s!".refine((s) => BigInt(s) < {v}n, \x7b message: \"Must be < {v}\" \x7d)"] }
  | some (.lte v) =>
      { chain with itemMethods := chain.itemMethods ++
          [s!".refine((s) => BigInt(s) <= {v}n, \x7b message: \"Must be <= {v}\" \x7d)"] }
  | none => chain

/-- `processRepeatedConstraints` from validation-mapper.ts. -/
def processRepeatedConstraints (constraints : RepeatedRules) (chain : ValidationChain) :
    ValidationChain :=
  let chain :=
    match constraints.minItems with
    | some v => if v > 0 then { chain with methods := chain.methods ++ [s!".min({v})"] } else chain
    | none => chain
  let chain :=
    match constraints.maxItems with
    | some v => if v > 0 then { chain with methods := chain.methods ++ [s!".max({v})"] } else chain
    | none => chain
  let chain :=
    if constraints.unique then
      { chain with methods := chain.methods ++
          [".refine((arr) => new Set(arr).size === arr.length, \x7b message: \"Items must be unique\" \x7d)"] }
    else chain
  match constraints.items with
  | some itemType =>
      match itemType with
      | .string r => processStringItemConstraints r chain
      | .enum r => processEnumItemConstraints r chain
      | .int32 r | .uint32 r | .sint32 r | .fixed32 r | .sfixed32 r =>
          processNumericItemConstraints r chain
      | .int64 r | .uint64 r | .sint64 r | .fixed64 r | .sfixed64 r =>
          processInt64ItemConstraints r chain
      | .otherItem => chain
  | none => chain

/-- `processMapConstraints` from validation-mapper.ts. -/
def processMapConstraints (constraints : MapRules) (chain : ValidationChain) :
    ValidationChain :=
  let chain :=
    match constraints.minPairs with
    | some v =>
        if v > 0 then
          { chain with methods := chain.methods ++
              [s!".refine((m) => Object.keys(m).length >= {v}, \x7b message: \"Map must have at least {v} entries\" \x7d)"] }
        else chain
    | none => chain
  match constraints.maxPairs with
  | some v =>
      if v > 0 then
        { chain with methods := chain.methods ++
            [s!".refine((m) => Object.keys(m).length <= {v}, \x7b message: \"Map must have at most {v} entries\" \x7d)"] }
      else chain
  | none => chain

/-- The `switch (type.case)` dispatch inside `getValidationChain`. -/
def dispatchConstraintType (t : ConstraintType) (chain : ValidationChain) : ValidationChain :=
  match t with
  | .string r => processStringConstraints r chain
  | .bytes r => processBytesConstraints r chain
  | .int32 r | .uint32 r | .sint32 r | .fixed32 r | .sfixed32 r =>
      processNumericConstraints r chain
  | .int64 r | .uint64 r | .sint64 r | .fixed64 r | .sfixed64 r =>
      processInt64Constraints r chain
  | .float r | .double r => processFloatConstraints r chain
  | .bool r => processBoolConstraints r chain
  | .enum r => processEnumConstraints r chain
  | .repeated r => processRepeatedConstraints r chain
  | .map r => processMapConstraints r chain
  | .otherType => chain

/-- `getValidationChain` from validation-mapper.ts.  The whole body runs inside
`try/catch`; the only throw site reachable through this model is the extension
decode (`getExtension`), which happens before any chain mutation, so the catch
arm returns the still-empty chain (after logging a warning naming the field). -/
def getValidationChain (field : DescField) : ValidationChain :=
  match field.annotation with
  | none => emptyChain
  | some (.error _) => emptyChain
  | some (.ok constraints) =>
      let chain := if constraints.required then { emptyChain with required := true } else emptyChain
      match constraints.type with
      | some t => dispatchConstraintType t chain
      | none => chain

/-- `isFieldRequired` from validation-mapper.ts (its own try/catch; a decode
error yields `false`). -/
def isFieldRequired (field : DescField) : Bool :=
  match field.annotation with
  | none => false
  | some (.error _) => false
  | some (.ok constraints) => constraints.required

/-! ## generator.ts: field rendering -/

/-- First pass of `escapePattern`: `replace(/\\/g, "\\\\")` — every backslash
doubled (single-character global regex replacement, modelled char by char). -/
def escBackslash : List Char → List Char
  | [] => []
  | ch :: rest => if ch = '\\' then '\\' :: '\\' :: escBackslash rest else ch :: escBackslash rest

/-- Second pass of `escapePattern`: `replace(/"/g, '\\"')` — every double quote
prefixed with a backslash. -/
def escQuote : List Char → List Char
  | [] => []
  | ch :: rest => if ch = '"' then '\\' :: '"' :: escQuote rest else ch :: escQuote rest

/-- `escapePattern` from generator.ts:
`pattern.replace(/\\/g, "\\\\").replace(/"/g, '\\"')`. -/
def escapePattern (pattern : String) : String :=
  String.mk (escQuote (escBackslash pattern.data))

/-- `field.fieldKind === "list"`. -/
def isListKind : FieldShape → Bool
  | .listScalar _ | .listEnum _ | .listMessage _ => true
  | _ => false

/-- `field.fieldKind === "enum"`. -/
def isEnumKind : FieldShape → Bool
  | .enum _ => true
  | _ => false

/-- The permissive pattern refinement generator.ts emits for optional fields
and for array items (the two templates in the source are identical). -/
def permissivePatternRefine (ep : String) : String :=
  s!".refine((v) => v === \"\" || new RegExp(\"{ep}\").test(v), \x7b message: \"Must match pattern: {ep}\" \x7d)"

/-- The strict pattern suffix generator.ts emits for required fields. -/
def strictPatternRegex (ep : String) : String :=
  s!".regex(new RegExp(\"{ep}\"))"

/-- `zodExpression.match(/^z\.array\((.+)\)$/)`: the greedy group captures
everything between the literal head `z.array(` and the final `)`, and must be
non-empty. -/
def arrayInner (e : String) : Option String :=
  if e.startsWith "z.array(" && e.endsWith ")" && decide (e.length ≥ 10) then
    some (String.mk ((e.data.drop 8).dropLast))
  else none

/-- The expression-building part of `generateFieldSchema` from generator.ts
(the source then prints `  ${toCamelCase field.name}: ${expr},` through the
file-emission collaborator; only the expression is modelled). -/
def generateFieldExpr (field : DescField) (context : TypeMapperContext)
    (recursiveTypes : List String) : String :=
  let typeInfo := mapFieldToZod field context
  let validation := getValidationChain field
  let fieldIsOptional := isFieldOptional field
  let fieldIsRequired := isFieldRequired field || validation.required
  let zodExpression := typeInfo.zodType
  -- references to recursive types are swapped for z.lazy()
  let zodExpression :=
    match field.shape with
    | .message m =>
        if recursiveTypes.contains m.name then "z.lazy(() => " ++ toSchemaName m.name ++ ")"
        else zodExpression
    | .listMessage m =>
        if recursiveTypes.contains m.name then
          "z.array(z.lazy(() => " ++ toSchemaName m.name ++ "))"
        else zodExpression
    | _ => zodExpression
  -- item-level constraints spliced into the array element position
  let zodExpression :=
    if isListKind field.shape &&
        (validation.itemMethods.length > 0 || validation.itemEnumNotIn.length > 0 ||
          validation.itemStringPattern.isSome) then
      match arrayInner zodExpression with
      | some inner =>
          let itemType := inner ++ String.join validation.itemMethods
          let itemType :=
            match validation.itemStringPattern with
            | some p => itemType ++ permissivePatternRefine (escapePattern p)
            | none => itemType
          let itemType :=
            if validation.itemEnumNotIn.length > 0 then
              let values := joinInts validation.itemEnumNotIn
              itemType ++
                s!".refine((e) => ![{values}].includes(e), \x7b message: \"Must not be one of: {values}\" \x7d)"
            else itemType
          "z.array(" ++ itemType ++ ")"
      | none => zodExpression
    else zodExpression
  -- field-level validation methods
  let zodExpression := zodExpression ++ String.join validation.methods
  -- string pattern: strict for required fields, permissive for optional ones
  let zodExpression :=
    match validation.stringPattern with
    | some p =>
        if fieldIsRequired then zodExpression ++ strictPatternRegex (escapePattern p)
        else zodExpression ++ permissivePatternRefine (escapePattern p)
    | none => zodExpression
  -- enum defined_only constraint
  let zodExpression :=
    if validation.enumDefinedOnly && isEnumKind field.shape then
      zodExpression ++ ".refine((v) => v !== 0, \"Value is required\")"
    else zodExpression
  -- optionality marker
  if fieldIsOptional && !fieldIsRequired then zodExpression ++ ".optional()" else zodExpression

/-! ## generator.ts: dependency resolver -/

/-- The `dependencies` map: message name -> list of referenced same-file
message names.  JS `Map`/`Set` iteration order is insertion order, so both are
modelled as association/plain lists with first-insertion order and no
duplicates. -/
abbrev Deps := List (String × List String)

def lookupDeps (deps : Deps) (k : String) : List String :=
  match deps.find? (fun e => e.1 == k) with
  | some e => e.2
  | none => []

/-- JS `Set.add`: appends unless already present. -/
def addUnique (l : List String) (x : String) : List String :=
  if x ∈ l then l else l ++ [x]

/-- JS `Map.set`: overwrites in place, keeping first-insertion position. -/
def setAssoc (m : Deps) (k : String) (v : List String) : Deps :=
  match m with
  | [] => [(k, v)]
  | (k', v') :: rest => if k' = k then (k, v) :: rest else (k', v') :: setAssoc rest k v

/-- `dependencies.get(k)!.add(d)` (the key always exists after initialisation;
a missing key is a no-op here, unreachable from `analyzeMessageDependencies`). -/
def addDepAssoc (m : Deps) (k : String) (d : String) : Deps :=
  match m with
  | [] => []
  | (k', v') :: rest =>
      if k' = k then (k', addUnique v' d) :: rest else (k', v') :: addDepAssoc rest k d

/-- The JS `Set` of message names (`new Set(messages.map(m => m.name))`). -/
def messageNamesOf (messages : List DescMessage) : List String :=
  messages.foldl (fun acc m => addUnique acc m.name) []

/-- The initialisation loop `dependencies.set(msg.name, new Set())`. -/
def initDeps (messages : List DescMessage) : Deps :=
  messages.foldl (fun acc m => setAssoc acc m.name []) []

/-- One field of the graph-building loop of `analyzeMessageDependencies`:
singular and repeated message fields add a same-file edge, and a self-reference
marks the owner recursive immediately (the two TS branches have identical
bodies). -/
def depFieldStep (messageNames : List String) (currentProtoPath : String) (msgName : String)
    (st : Deps × List String) (field : DescField) : Deps × List String :=
  match field.shape with
  | .message ref =>
      if messageNames.contains ref.name && ref.fileName == currentProtoPath then
        (addDepAssoc st.1 msgName ref.name,
         if ref.name == msgName then addUnique st.2 msgName else st.2)
      else st
  | .listMessage ref =>
      if messageNames.contains ref.name && ref.fileName == currentProtoPath then
        (addDepAssoc st.1 msgName ref.name,
         if ref.name == msgName then addUnique st.2 msgName else st.2)
      else st
  | _ => st

/-- The graph-building phase: returns the dependency map and the directly
self-referencing messages already marked recursive. -/
def buildDependencyGraph (messages : List DescMessage) (currentProtoPath : String) :
    Deps × List String :=
  messages.foldl
    (fun st msg =>
      msg.fields.foldl (depFieldStep (messageNamesOf messages) currentProtoPath msg.name) st)
    (initDeps messages, [])

theorem lookupDeps_key_mem {deps : Deps} {node : String} (h : lookupDeps deps node ≠ []) :
    node ∈ deps.map Prod.fst := by
  unfold lookupDeps at h
  cases hf : deps.find? (fun e => e.1 == node) with
  | none => rw [hf] at h; simp at h
  | some e =>
      have he := List.find?_some hf
      have hm : e ∈ deps := List.mem_of_find?_eq_some hf
      have heq : e.1 = node := by simpa using he
      exact heq ▸ List.mem_map.mpr ⟨e, hm, rfl⟩

theorem filter_len_mono {p q : String → Bool} (h : ∀ x, p x = true → q x = true) :
    ∀ l : List String, (l.filter p).length ≤ (l.filter q).length := by
  intro l
  induction l with
  | nil => simp
  | cons x xs ih =>
      by_cases hp : p x = true
      · rw [List.filter_cons_of_pos hp, List.filter_cons_of_pos (h x hp)]
        simpa using ih
      · rw [List.filter_cons_of_neg (by simpa using hp)]
        cases hq : q x with
        | true => rw [List.filter_cons_of_pos hq]; exact Nat.le_succ_of_le ih
        | false => rw [List.filter_cons_of_neg (by simp [hq])]; exact ih

theorem filter_notMem_cons_lt {l v : List String} {a : String} (ha : a ∈ l) (hv : a ∉ v) :
    (l.filter (fun k => decide (k ∉ a :: v))).length <
      (l.filter (fun k => decide (k ∉ v))).length := by
  induction l with
  | nil => cases ha
  | cons x xs ih =>
      by_cases hx : x = a
      · subst hx
        rw [List.filter_cons_of_neg (by simp), List.filter_cons_of_pos (by simpa using hv)]
        have hm : ∀ k : String, decide (k ∉ x :: v) = true → decide (k ∉ v) = true := by
          intro k hk
          simp only [decide_eq_true_eq, List.mem_cons] at hk ⊢
          exact fun h => hk (Or.inr h)
        exact Nat.lt_succ_of_le (filter_len_mono hm xs)
      · have ha' : a ∈ xs := by
          cases List.mem_cons.mp ha with
          | inl h => exact absurd h.symm hx
          | inr h => exact h
        by_cases hxv : x ∈ v
        · rw [List.filter_cons_of_neg (by simp [hxv]), List.filter_cons_of_neg (by simp [hxv])]
          exact ih ha'
        · rw [List.filter_cons_of_pos (by simp [hxv, Ne.symm hx ∘ Eq.symm, hx]),
            List.filter_cons_of_pos (by simpa using hxv)]
          exact Nat.succ_lt_succ (ih ha')

/-- The number of dependency-map keys not yet on the visiting path: an upper
bound (plus one) on the remaining recursion depth of `hasCycle`, since every
recursive call pushes an unvisited key onto the path and a node outside the
key set has no outgoing edges. -/
def unvisitedKeys (dependencies : Deps) (visiting : List String) : Nat :=
  ((dependencies.map Prod.fst).filter (fun k => decide (k ∉ visiting))).length

/-- Fueled form of `hasCycle`; with fuel above `unvisitedKeys` the floor case
is unreachable and the function satisfies exactly the source's recursion
(`hasCycle_unfold` below). -/
def hasCycleF : Nat → String → Deps → List String → Bool
  | 0, node, _, visiting => node ∈ visiting
  | fuel + 1, node, dependencies, visiting =>
      if node ∈ visiting then true
      else (lookupDeps dependencies node).any
        (fun d => hasCycleF fuel d dependencies (node :: visiting))

/-- `hasCycle` from generator.ts: depth-first search carrying the active
visitation path (the source mutates one `Set`, restoring it on exit, which is
equivalent to this pure reading).  Returns true as soon as the walk re-enters
the visiting path — i.e. when some cycle is reachable from `node`, not only
when `node` itself lies on a cycle.  The fuel provably never runs out
(`hasCycle_unfold` shows the defining recursion of the source holds). -/
def hasCycle (node : String) (dependencies : Deps) (visiting : List String) : Bool :=
  hasCycleF (unvisitedKeys dependencies visiting + 1) node dependencies visiting

theorem unvisitedKeys_cons_lt {dependencies : Deps} {visiting : List String} {n : String}
    (hk : n ∈ dependencies.map Prod.fst) (hv : n ∉ visiting) :
    unvisitedKeys dependencies (n :: visiting) < unvisitedKeys dependencies visiting :=
  filter_notMem_cons_lt hk hv

/-- Fuel irrelevance above the `unvisitedKeys` threshold. -/
theorem hasCycleF_stable (dependencies : Deps) :
    ∀ fuel node visiting, unvisitedKeys dependencies visiting + 1 ≤ fuel →
      hasCycleF (fuel + 1) node dependencies visiting
        = hasCycleF fuel node dependencies visiting := by
  intro fuel
  induction fuel using Nat.strong_induction_on with
  | _ fuel ih =>
      intro node visiting hfuel
      match fuel, hfuel with
      | f + 1, hfuel =>
          show (if node ∈ visiting then true else _) = (if node ∈ visiting then true else _)
          by_cases hv : node ∈ visiting
          · rw [if_pos hv, if_pos hv]
          · rw [if_neg hv, if_neg hv]
            cases hld : lookupDeps dependencies node with
            | nil => rfl
            | cons d ds =>
                have hk : node ∈ dependencies.map Prod.fst :=
                  lookupDeps_key_mem (hld ▸ List.cons_ne_nil d ds)
                have hlt := unvisitedKeys_cons_lt hk hv
                have harg : unvisitedKeys dependencies (node :: visiting) + 1 ≤ f := by
                  omega
                have hall : ∀ x, hasCycleF (f + 1) x dependencies (node :: visiting)
                    = hasCycleF f x dependencies (node :: visiting) := by
                  intro x
                  exact ih f (Nat.lt_succ_self f) x (node :: visiting) harg
                simp only [List.any_cons, hall]

theorem hasCycleF_ge (dependencies : Deps) :
    ∀ fuel node visiting, unvisitedKeys dependencies visiting + 1 ≤ fuel →
      hasCycleF fuel node dependencies visiting = hasCycle node dependencies visiting := by
  intro fuel
  induction fuel with
  | zero => intro node visiting h; omega
  | succ fuel ih =>
      intro node visiting h
      rcases Nat.lt_or_ge (unvisitedKeys dependencies visiting + 1) (fuel + 1) with hlt | hge
      · have hle : unvisitedKeys dependencies visiting + 1 ≤ fuel := by omega
        rw [hasCycleF_stable dependencies fuel node visiting hle]
        exact ih node visiting hle
      · have : fuel + 1 = unvisitedKeys dependencies visiting + 1 := by omega
        rw [this]
        rfl

/-- `hasCycle` satisfies the source's defining recursion. -/
theorem hasCycle_unfold (node : String) (dependencies : Deps) (visiting : List String) :
    hasCycle node dependencies visiting =
      (if node ∈ visiting then true
       else (lookupDeps dependencies node).any
         (fun d => hasCycle d dependencies (node :: visiting))) := by
  show hasCycleF (unvisitedKeys dependencies visiting + 1) node dependencies visiting = _
  by_cases hv : node ∈ visiting
  · rw [if_pos hv]
    show (if node ∈ visiting then true else _) = true
    rw [if_pos hv]
  · rw [if_neg hv]
    show (if node ∈ visiting then true else _) = _
    rw [if_neg hv]
    cases hld : lookupDeps dependencies node with
    | nil => rfl
    | cons d ds =>
        have hk : node ∈ dependencies.map Prod.fst :=
          lookupDeps_key_mem (hld ▸ List.cons_ne_nil d ds)
        have hlt := unvisitedKeys_cons_lt hk hv
        have hfe : ∀ x, hasCycleF (unvisitedKeys dependencies visiting) x dependencies
            (node :: visiting) = hasCycle x dependencies (node :: visiting) := by
          intro x
          exact hasCycleF_ge dependencies _ x (node :: visiting) (by omega)
        simp only [List.any_cons, hfe]

/-- `Array.from(deps).filter(d => d !== owner && !recursiveTypes.has(d))`. -/
def nonSelfNonRec (recTypes : List String) (owner : String) (ds : List String) : List String :=
  ds.filter (fun d => !(d == owner) && !(recTypes.contains d))

/-- The seeding loop: messages whose non-self, non-recursive dependency list is
empty enter the queue in declaration order. -/
def initQueue (messages : List DescMessage) (deps : Deps) (recTypes : List String) :
    List String :=
  (messages.filter
      (fun m => (nonSelfNonRec recTypes m.name (lookupDeps deps m.name)).isEmpty)).map
    (fun m => m.name)

/-- `messages.find(m => m.name === name)`, over index-tagged messages
(the index models JS object identity for the later `result.includes` test). -/
def findMsg (imsgs : List (Nat × DescMessage)) (name : String) : Option (Nat × DescMessage) :=
  imsgs.find? (fun im => im.2.name == name)

/-- The scan over `dependencies` that enqueues every not-yet-visited message
depending on `name` whose non-self, non-recursive dependencies are all
visited. -/
def pushCandidates (deps : Deps) (recTypes : List String) (visited : List String)
    (name : String) : List String :=
  (deps.filter (fun e =>
      !(visited.contains e.1) && e.2.contains name &&
        (nonSelfNonRec recTypes e.1 e.2).all (fun d => visited.contains d))).map Prod.fst

/-- The `while (queue.length > 0)` scheduling loop of
`analyzeMessageDependencies`, with explicit fuel (the caller passes enough fuel
for the loop to drain the queue; see `kahnLoop_drains`).  Returns the final
queue, visited set and result list. -/
def kahnLoop (imsgs : List (Nat × DescMessage)) (deps : Deps) (recTypes : List String) :
    Nat → List String → List String → List (Nat × DescMessage) →
      List String × List String × List (Nat × DescMessage)
  | 0, queue, visited, result => (queue, visited, result)
  | _ + 1, [], visited, result => ([], visited, result)
  | fuel + 1, name :: rest, visited, result =>
      if name ∈ visited then kahnLoop imsgs deps recTypes fuel rest visited result
      else
        let visited' := visited ++ [name]
        let result' :=
          match findMsg imsgs name with
          | some im => result ++ [im]
          | none => result
        kahnLoop imsgs deps recTypes fuel (rest ++ pushCandidates deps recTypes visited' name)
          visited' result'

/-- The final `for` loop: any message not in the result (JS object identity =
index identity here) is appended in declaration order. -/
def appendRemaining (imsgs : List (Nat × DescMessage)) (result : List (Nat × DescMessage)) :
    List (Nat × DescMessage) :=
  imsgs.foldl (fun r im => if im ∈ r then r else r ++ [im]) result

structure DependencyAnalysis where
  sortedMessages : List DescMessage
  recursiveTypes : List String
deriving DecidableEq, Repr

/-- The recursive-type set after the `hasCycle` pass over `messageNames`. -/
def recursiveTypesOf (messages : List DescMessage) (currentProtoPath : String) :
    List String :=
  (messageNamesOf messages).foldl
    (fun r n =>
      if hasCycle n (buildDependencyGraph messages currentProtoPath).1 [] then addUnique r n
      else r)
    (buildDependencyGraph messages currentProtoPath).2

/-- `analyzeMessageDependencies` from generator.ts.  The `inDegree` map the
source computes is never read afterwards (dead code) and is not modelled.
The fuel passed to `kahnLoop` strictly exceeds the potential
`|unvisited keys| * (|deps| + 1) + |queue|`, which strictly decreases at every
iteration, so the loop always drains the queue exactly as the source's
unbounded `while` does. -/
def analyzeMessageDependencies (messages : List DescMessage) (currentProtoPath : String) :
    DependencyAnalysis :=
  let dependencies := (buildDependencyGraph messages currentProtoPath).1
  let recTypes := recursiveTypesOf messages currentProtoPath
  let imsgs := messages.enum
  let queue0 := initQueue messages dependencies recTypes
  let fuel := (dependencies.length + queue0.length) * (dependencies.length + 1) +
    queue0.length + 1
  let st := kahnLoop imsgs dependencies recTypes fuel queue0 [] []
  let final := appendRemaining imsgs st.2.2
  { sortedMessages := final.map Prod.snd, recursiveTypes := recTypes }

theorem stringStep_required (c : StringRules) (ch : ValidationChain) :
    (stringStepMinLen c ch).required = ch.required ∧
    (stringStepMaxLen c ch).required = ch.required ∧
    (stringStepLen c ch).required = ch.required ∧
    (stringStepPattern c ch).required = ch.required ∧
    (stringStepPrefix c ch).required = ch.required ∧
    (stringStepSuffix c ch).required = ch.required ∧
    (stringStepContains c ch).required = ch.required ∧
    (stringStepWellKnown c ch).required = ch.required := by
  refine ⟨?_, ?_, ?_, ?_, ?_, ?_, ?_, ?_⟩ <;>
    · simp only [stringStepMinLen, stringStepMaxLen, stringStepLen, stringStepPattern,
        stringStepPrefix, stringStepSuffix, stringStepContains, stringStepWellKnown]
      repeat' split
      all_goals rfl

theorem processString_required (c : StringRules) (ch : ValidationChain) :
    (processStringConstraints c ch).required = ch.required := by
  unfold processStringConstraints
  rw [(stringStep_required c _).2.2.2.2.2.2.2, (stringStep_required c _).2.2.2.2.2.2.1,
    (stringStep_required c _).2.2.2.2.2.1, (stringStep_required c _).2.2.2.2.1,
    (stringStep_required c _).2.2.2.1, (stringStep_required c _).2.2.1,
    (stringStep_required c _).2.1, (stringStep_required c _).1]

theorem stringStep_pattern_preserved (c : StringRules) (ch : ValidationChain) :
    (stringStepMinLen c ch).stringPattern = ch.stringPattern ∧
    (stringStepMaxLen c ch).stringPattern = ch.stringPattern ∧
    (stringStepLen c ch).stringPattern = ch.stringPattern ∧
    (stringStepPrefix c ch).stringPattern = ch.stringPattern ∧
    (stringStepSuffix c ch).stringPattern = ch.stringPattern ∧
    (stringStepContains c ch).stringPattern = ch.stringPattern ∧
    (stringStepWellKnown c ch).stringPattern = ch.stringPattern := by
  refine ⟨?_, ?_, ?_, ?_, ?_, ?_, ?_⟩ <;>
    · simp only [stringStepMinLen, stringStepMaxLen, stringStepLen,
        stringStepPrefix, stringStepSuffix, stringStepContains, stringStepWellKnown]
      repeat' split
      all_goals rfl

theorem stringStepPattern_sets (c : StringRules) (ch : ValidationChain) :
    (stringStepPattern c ch).stringPattern =
      (match strTruthy c.pattern with
       | some p => some p
       | none => ch.stringPattern) := by
  unfold stringStepPattern
  split <;> simp_all

theorem processString_stringPattern (c : StringRules) (ch : ValidationChain) :
    (processStringConstraints c ch).stringPattern =
      (match strTruthy c.pattern with
       | some p => some p
       | none => ch.stringPattern) := by
  unfold processStringConstraints
  rw [(stringStep_pattern_preserved c _).2.2.2.2.2.2, (stringStep_pattern_preserved c _).2.2.2.2.2.1,
    (stringStep_pattern_preserved c _).2.2.2.2.1, (stringStep_pattern_preserved c _).2.2.2.1,
    stringStepPattern_sets, (stringStep_pattern_preserved c _).2.2.1,
    (stringStep_pattern_preserved c _).2.1, (stringStep_pattern_preserved c _).1]

theorem stringStep_methods_congr (c : StringRules) (ch₁ ch₂ : ValidationChain)
    (h : ch₁.methods = ch₂.methods) :
    (stringStepPrefix c ch₁).methods = (stringStepPrefix c ch₂).methods ∧
    (stringStepSuffix c ch₁).methods = (stringStepSuffix c ch₂).methods ∧
    (stringStepContains c ch₁).methods = (stringStepContains c ch₂).methods ∧
    (stringStepWellKnown c ch₁).methods = (stringStepWellKnown c ch₂).methods := by
  refine ⟨?_, ?_, ?_, ?_⟩ <;>
    · simp only [stringStepPrefix, stringStepSuffix, stringStepContains, stringStepWellKnown]
      repeat' split
      all_goals simp [pushMethod, h]

theorem processString_methods_pattern_free (c : StringRules) (ch : ValidationChain) :
    (processStringConstraints c ch).methods =
      (processStringConstraints { c with pattern := none } ch).methods := by
  unfold processStringConstraints
  have h1 : ∀ x, stringStepMaxLen { c with pattern := none } x = stringStepMaxLen c x :=
    fun _ => rfl
  have h2 : ∀ x, stringStepLen { c with pattern := none } x = stringStepLen c x := fun _ => rfl
  have h3 : ∀ x, stringStepPattern { c with pattern := none } x = x := fun _ => rfl
  have h4 : ∀ x, stringStepPrefix { c with pattern := none } x = stringStepPrefix c x :=
    fun _ => rfl
  have h5 : ∀ x, stringStepSuffix { c with pattern := none } x = stringStepSuffix c x :=
    fun _ => rfl
  have h6 : ∀ x, stringStepContains { c with pattern := none } x = stringStepContains c x :=
    fun _ => rfl
  have h7 : ∀ x, stringStepWellKnown { c with pattern := none } x = stringStepWellKnown c x :=
    fun _ => rfl
  have h0 : stringStepMinLen { c with pattern := none } ch = stringStepMinLen c ch := rfl
  rw [h0, h1, h2, h3, h4, h5, h6, h7]
  have hpm : ∀ x : ValidationChain, (stringStepPattern c x).methods = x.methods := by
    intro x; unfold stringStepPattern; split <;> rfl
  have m1 := (stringStep_methods_congr c _ _ (hpm
    (stringStepLen c (stringStepMaxLen c (stringStepMinLen c ch))))).1
  have m2 := (stringStep_methods_congr c _ _ m1).2.1
  have m3 := (stringStep_methods_congr c _ _ m2).2.2.1
  exact (stringStep_methods_congr c _ _ m3).2.2.2

theorem strTruthy_some_ne {p : String} (h : p ≠ "") : strTruthy (some p) = some p := by
  show (if p = "" then none else some p) = some p
  rw [if_neg h]

theorem no_optional_suffix (x : List Char) :
    ¬ (".optional()".data <:+ x ++ ['"', ')', ')']) := by
  intro hs
  obtain ⟨t, ht⟩ := hs
  have h2 := congrArg List.reverse ht
  simp only [List.reverse_append] at h2
  have hopt : (".optional()".data).reverse = [')', '(', 'l', 'a', 'n', 'o', 'i', 't', 'p', 'o', '.'] := rfl
  have hrp : (['"', ')', ')'] : List Char).reverse = [')', ')', '"'] := rfl
  rw [hopt, hrp] at h2
  simp at h2

-- C5 attempt: rfl equivalences
example (s : StringRules) (ch : ValidationChain) :
    processStringConstraints { s with maxLen := some 0 } ch
      = processStringConstraints { s with maxLen := none } ch := rfl

example (rep : RepeatedRules) (ch : ValidationChain) :
    processRepeatedConstraints { rep with maxItems := some 0 } ch
      = processRepeatedConstraints { rep with maxItems := none } ch := rfl

example (m : MapRules) (ch : ValidationChain) :
    processMapConstraints { m with maxPairs := some 0 } ch
      = processMapConstraints { m with maxPairs := none } ch := rfl

-- ===== C4 =====
/-- C4: for every field whose annotation payload throws during decoding
(extension not fully decodable), `getValidationChain` catches the error locally
and returns the empty validation chain: empty methods list, required = false,
empty item-level lists, no string pattern, enumDefinedOnly = false.  In the
source the only throw site inside the try block reachable before any chain
mutation is the extension decode itself, so nothing partial can leak out. -/
theorem C4_decode_failure_yields_empty_chain (field : DescField) (e : DecodeError)
    (h : field.annotation = some (Except.error e)) :
    getValidationChain field = emptyChain ∧
    (getValidationChain field).methods = [] ∧
    (getValidationChain field).required = false ∧
    (getValidationChain field).itemMethods = [] ∧
    (getValidationChain field).itemEnumNotIn = [] ∧
    (getValidationChain field).stringPattern = none ∧
    (getValidationChain field).enumDefinedOnly = false := by
  have he : getValidationChain field = emptyChain := by
    unfold getValidationChain
    rw [h]
  exact ⟨he, by rw [he]; rfl, by rw [he]; rfl, by rw [he]; rfl, by rw [he]; rfl,
    by rw [he]; rfl, by rw [he]; rfl⟩

/-- Witness for C4 at a concrete field whose extension decode throws. -/
theorem C4_witness :
    DescField.annotation
      { name := "e", shape := .scalar .STRING,
        annotation := some (Except.error "boom") }
      = some (Except.error "boom") ∧
    getValidationChain
      { name := "e", shape := .scalar .STRING,
        annotation := some (Except.error "boom") } = emptyChain :=
  ⟨rfl, (C4_decode_failure_yields_empty_chain _ "boom" rfl).1⟩

-- ===== C5 =====
/-- C5: a zero-valued max-length / max-items / max-pairs constraint produces no
bound suffix: each processor treats `some 0` exactly like an unset constraint
(proto3 default), and on an otherwise-empty rule record it emits no method at
all. -/
theorem C5_zero_max_suppressed (s : StringRules) (rep : RepeatedRules) (m : MapRules)
    (ch : ValidationChain) :
    processStringConstraints { s with maxLen := some 0 } ch
      = processStringConstraints { s with maxLen := none } ch ∧
    processRepeatedConstraints { rep with maxItems := some 0 } ch
      = processRepeatedConstraints { rep with maxItems := none } ch ∧
    processMapConstraints { m with maxPairs := some 0 } ch
      = processMapConstraints { m with maxPairs := none } ch ∧
    (processStringConstraints { maxLen := some 0 } emptyChain).methods = [] ∧
    (processRepeatedConstraints { maxItems := some 0 } emptyChain).methods = [] ∧
    (processMapConstraints { maxPairs := some 0 } emptyChain).methods = [] :=
  ⟨rfl, rfl, rfl, rfl, rfl, rfl⟩

-- ===== C6 =====
/-- C6: for a 32-bit numeric field (any of the five 32-bit constraint arms)
whose annotation sets a lower bound, an upper bound, a non-zero constant, a
non-empty inclusion list and a non-empty exclusion list, the extracted suffix
list is exactly [gt/gte, lt/lte, equality refinement, inclusion refinement,
exclusion refinement] in this order. -/
theorem C6_numeric_suffix_order (nm : String) (p3 dep : Bool) (sh : FieldShape)
    (g : GtRule Int) (l : LtRule Int) (c : Int) (ins nots : List Int)
    (r : NumericRules) (tc : ConstraintType)
    (hr : r = { greaterThan := some g, lessThan := some l, constVal := some c,
                inVals := ins, notIn := nots })
    (hc : c ≠ 0) (hins : ins ≠ []) (hnots : nots ≠ [])
    (htc : tc = .int32 r ∨ tc = .uint32 r ∨ tc = .sint32 r ∨ tc = .fixed32 r ∨
           tc = .sfixed32 r) :
    (getValidationChain
        { name := nm, shape := sh, proto3Optional := p3,
          annotation := some (.ok { required := false, type := some tc }),
          deprecated := dep }).methods
      = [(match g with | .gt v => s!".gt({v})" | .gte v => s!".gte({v})"),
         (match l with | .lt v => s!".lt({v})" | .lte v => s!".lte({v})"),
         s!".refine((n) => n === {c}, \x7b message: \"Must equal {c}\" \x7d)",
         s!".refine((n) => [{joinInts ins}].includes(n), \x7b message: \"Must be one of: {joinInts ins}\" \x7d)",
         s!".refine((n) => ![{joinInts nots}].includes(n), \x7b message: \"Must not be one of: {joinInts nots}\" \x7d)"] := by
  subst hr
  have hins' : ins.length > 0 := List.length_pos.mpr hins
  have hnots' : nots.length > 0 := List.length_pos.mpr hnots
  rcases htc with h | h | h | h | h <;> subst h <;>
    · show (processNumericConstraints _ emptyChain).methods = _
      unfold processNumericConstraints
      cases g <;> cases l <;>
        simp [pushMethod, emptyChain, hc, hins', hnots', if_pos, joinInts]

-- ===== C9 =====
/-- C9: for every scalar field, `mapFieldToZod` returns exactly the base
expression chosen by `mapScalarToZod` from the scalar classifier alone, with
no import obligation (`needsImport = none` in the returned record); the base
expression is always one of the fixed expressions, and every 64-bit integer
kind maps to the string expression.  The embedding is a pure function, so
repeated calls agree definitionally. -/
theorem C9_scalar_base_expressions (f : DescField) (s : ScalarType)
    (ctx : TypeMapperContext) (h : f.shape = .scalar s) :
    mapFieldToZod f ctx = { zodType := mapScalarToZod s } ∧
    mapScalarToZod s ∈ ["z.string()", "z.boolean()", "z.number().int()",
      "z.number().int().nonnegative()", "z.number()", "z.instanceof(Uint8Array)"] ∧
    mapScalarToZod .INT64 = "z.string()" ∧ mapScalarToZod .SINT64 = "z.string()" ∧
    mapScalarToZod .SFIXED64 = "z.string()" ∧ mapScalarToZod .UINT64 = "z.string()" ∧
    mapScalarToZod .FIXED64 = "z.string()" := by
  refine ⟨?_, ?_, rfl, rfl, rfl, rfl, rfl⟩
  · unfold mapFieldToZod mapSingleFieldToZod
    rw [h]
  · cases s <;> simp [mapScalarToZod]

/-- Witness for C9 at a concrete UINT64 scalar field. -/
theorem C9_witness :
    ({ name := "f", shape := .scalar .UINT64 } : DescField).shape = .scalar .UINT64 ∧
    mapFieldToZod { name := "f", shape := .scalar .UINT64 } { currentProtoPath := "x" }
      = { zodType := "z.string()" } :=
  ⟨rfl, (C9_scalar_base_expressions _ .UINT64 _ rfl).1⟩

-- ===== C10 =====
/-- C10: prefix stripping round-trips with screaming-snake-case conversion:
stripEnumPrefix (toScreamingSnakeCase E ++ "_" ++ r) E = r, and any value name
that does not start with that prefix is returned unchanged. -/
theorem C10_stripEnumPrefix_roundtrip (E r v : String)
    (h : (toScreamingSnakeCase E ++ "_").data.isPrefixOf v.data = false) :
    stripEnumPrefix (toScreamingSnakeCase E ++ "_" ++ r) E = r ∧
    stripEnumPrefix v E = v := by
  constructor
  · unfold stripEnumPrefix
    have hp : (toScreamingSnakeCase E ++ "_").data.isPrefixOf
        (toScreamingSnakeCase E ++ "_" ++ r).data = true := by
      rw [String.data_append]
      exact List.isPrefixOf_iff_prefix.mpr (List.prefix_append _ _)
    rw [if_pos hp, String.data_append]
    have hl : (toScreamingSnakeCase E ++ "_").length
        = (toScreamingSnakeCase E ++ "_").data.length := rfl
    rw [hl, List.drop_left]
  · unfold stripEnumPrefix
    have hneg : ¬((toScreamingSnakeCase E ++ "_").data.isPrefixOf v.data = true) := by
      rw [h]
      exact Bool.false_ne_true
    rw [if_neg hneg]

/-- Witness for C10 on the CostType example from the source comments. -/
theorem C10_witness :
    (toScreamingSnakeCase "CostType" ++ "_").data.isPrefixOf "OTHER".data = false ∧
    stripEnumPrefix (toScreamingSnakeCase "CostType" ++ "_" ++ "TOKEN_INPUT") "CostType"
      = "TOKEN_INPUT" ∧
    stripEnumPrefix "OTHER" "CostType" = "OTHER" ∧
    stripEnumPrefix "COST_TYPE_TOKEN_INPUT" "CostType" = "TOKEN_INPUT" := by
  have h := C10_stripEnumPrefix_roundtrip "CostType" "TOKEN_INPUT" "OTHER" (by decide)
  exact ⟨by decide, h.1, h.2, by decide⟩

-- shared constructor for string-annotated fields (C7/C8)
/-- A singular string field carrying a buf.validate string annotation with the
given `required` flag and string rules. -/
def strAnnotField (nm : String) (p3 dep req : Bool) (c : StringRules) : DescField :=
  { name := nm, shape := .scalar .STRING, proto3Optional := p3,
    annotation := some (.ok { required := req, type := some (.string c) }),
    deprecated := dep }

-- ===== C8 =====
/-- C8: a string field whose annotation sets min-length 3, max-length 10 and
the required marker extracts the chain
{methods := [".min(3)", ".max(10)"], required := true} with an empty pattern
slot, and the emitted expression is exactly `z.string().min(3).max(10)` with no
`.optional()` suffix.  (No witness needed: no propositional hypotheses.) -/
theorem C8_min_max_required (nm : String) (p3 dep : Bool) (ctx : TypeMapperContext)
    (recT : List String) :
    getValidationChain
        (strAnnotField nm p3 dep true { minLen := some 3, maxLen := some 10 })
      = { methods := [".min(3)", ".max(10)"], required := true } ∧
    generateFieldExpr
        (strAnnotField nm p3 dep true { minLen := some 3, maxLen := some 10 }) ctx recT
      = "z.string().min(3).max(10)" ∧
    ¬(".optional()".data <:+
        (generateFieldExpr
          (strAnnotField nm p3 dep true { minLen := some 3, maxLen := some 10 })
          ctx recT).data) := by
  refine ⟨rfl, rfl, ?_⟩
  intro hs
  rw [show generateFieldExpr
      (strAnnotField nm p3 dep true { minLen := some 3, maxLen := some 10 }) ctx recT
      = "z.string().min(3).max(10)" from rfl] at hs
  revert hs
  decide

-- ===== C7 =====
/-- C7: for a singular string field carrying a non-empty regex pattern and no
required marker, the pattern lands in the dedicated `stringPattern` slot (and
contributes nothing to the suffix list), and the rendered expression ends with
the permissive empty-string-or-match refinement followed by `.optional()` as
the final suffix; with the required marker set instead, the expression ends
with the strict `.regex(new RegExp(...))` form and carries no `.optional()`
suffix. -/
theorem C7_pattern_slot_and_rendering (nm : String) (p3 dep : Bool) (c : StringRules)
    (p : String) (ctx : TypeMapperContext) (recT : List String)
    (hp : c.pattern = some p) (hne : p ≠ "") :
    (getValidationChain (strAnnotField nm p3 dep false c)).stringPattern = some p ∧
    (getValidationChain (strAnnotField nm p3 dep false c)).methods
      = (getValidationChain (strAnnotField nm p3 dep false { c with pattern := none })).methods ∧
    (∃ pre, generateFieldExpr (strAnnotField nm p3 dep false c) ctx recT
        = pre ++ permissivePatternRefine (escapePattern p) ++ ".optional()") ∧
    (∃ pre, generateFieldExpr (strAnnotField nm p3 dep true c) ctx recT
        = pre ++ strictPatternRegex (escapePattern p)) ∧
    ¬(".optional()".data <:+
        (generateFieldExpr (strAnnotField nm p3 dep true c) ctx recT).data) := by
  have hVopt : getValidationChain (strAnnotField nm p3 dep false c)
      = processStringConstraints c emptyChain := rfl
  have hVreq : getValidationChain (strAnnotField nm p3 dep true c)
      = processStringConstraints c { emptyChain with required := true } := rfl
  have hVnopat : getValidationChain (strAnnotField nm p3 dep false { c with pattern := none })
      = processStringConstraints { c with pattern := none } emptyChain := rfl
  have hpat : ∀ ch : ValidationChain, (processStringConstraints c ch).stringPattern = some p := by
    intro ch
    rw [processString_stringPattern, hp, strTruthy_some_ne hne]
  have hexprR : generateFieldExpr (strAnnotField nm p3 dep true c) ctx recT
      = ("z.string()" ++
          String.join (processStringConstraints c { emptyChain with required := true }).methods)
          ++ strictPatternRegex (escapePattern p) := by
    unfold generateFieldExpr
    rw [hVreq]
    dsimp only [strAnnotField, mapFieldToZod, mapSingleFieldToZod, mapScalarToZod,
      isFieldOptional, isFieldRequired, isListKind, isEnumKind]
    rw [processString_required, hpat { emptyChain with required := true }]
    simp [emptyChain]
  refine ⟨by rw [hVopt]; exact hpat _, ?_, ?_, ⟨_, hexprR⟩, ?_⟩
  · rw [hVopt, hVnopat]
    exact processString_methods_pattern_free c emptyChain
  · refine ⟨"z.string()" ++ String.join (processStringConstraints c emptyChain).methods, ?_⟩
    unfold generateFieldExpr
    rw [hVopt]
    dsimp only [strAnnotField, mapFieldToZod, mapSingleFieldToZod, mapScalarToZod,
      isFieldOptional, isFieldRequired, isListKind, isEnumKind]
    rw [processString_required, hpat emptyChain]
    simp [emptyChain]
  · intro hs
    rw [hexprR] at hs
    have hsr : strictPatternRegex (escapePattern p)
        = (".regex(new RegExp(\"" ++ escapePattern p) ++ "\"))" := rfl
    rw [hsr] at hs
    simp only [String.data_append] at hs
    rw [← List.append_assoc] at hs
    exact no_optional_suffix _ hs

/-- Witness for C6 at gt 1, lte 9, const 5, in [1,2], notIn [3,4]. -/
theorem C6_numeric_suffix_order_witness :
    ((5 : Int) ≠ 0) ∧ (([1, 2] : List Int) ≠ []) ∧ (([3, 4] : List Int) ≠ []) ∧
    (getValidationChain ⟨"n", .scalar .INT32, false,
        some (.ok ⟨false, some (.int32 ⟨some (.gt 1), some (.lte 9), some 5, [1, 2], [3, 4]⟩)⟩),
        false⟩).methods
      = [".gt(1)", ".lte(9)",
         ".refine((n) => n === 5, \x7b message: \"Must equal 5\" \x7d)",
         ".refine((n) => [1, 2].includes(n), \x7b message: \"Must be one of: 1, 2\" \x7d)",
         ".refine((n) => ![3, 4].includes(n), \x7b message: \"Must not be one of: 3, 4\" \x7d)"] := by
  refine ⟨by decide, by decide, by decide, ?_⟩
  have h := C6_numeric_suffix_order "n" false false (.scalar .INT32) (.gt 1) (.lte 9) 5
    [1, 2] [3, 4] ⟨some (.gt 1), some (.lte 9), some 5, [1, 2], [3, 4]⟩
    (.int32 ⟨some (.gt 1), some (.lte 9), some 5, [1, 2], [3, 4]⟩) rfl
    (by decide) (by decide) (by decide) (Or.inl rfl)
  exact h.trans rfl

/-- Witness for C7 at the spec's scenario pattern `^[a-z]+$`. -/
theorem C7_pattern_slot_and_rendering_witness :
    (({ pattern := some "^[a-z]+$" } : StringRules)).pattern = some "^[a-z]+$" ∧
    ("^[a-z]+$" ≠ "") ∧
    (getValidationChain
        (strAnnotField "slug" false false false { pattern := some "^[a-z]+$" })).stringPattern
      = some "^[a-z]+$" ∧
    generateFieldExpr (strAnnotField "slug" false false false { pattern := some "^[a-z]+$" })
        { currentProtoPath := "f" } []
      = "z.string().refine((v) => v === \"\" || new RegExp(\"^[a-z]+$\").test(v), \x7b message: \"Must match pattern: ^[a-z]+$\" \x7d).optional()" := by
  refine ⟨rfl, by decide, ?_, by rfl⟩
  exact (C7_pattern_slot_and_rendering "slug" false false { pattern := some "^[a-z]+$" }
    "^[a-z]+$" { currentProtoPath := "f" } [] rfl (by decide)).1

example : hasCycle "B" [("A", ["B"]), ("B", ["B"])] [] = true := by decide
example : hasCycle "A" [("A", ["B"]), ("B", ["B"])] [] = true := by decide
example : hasCycle "A" [("A", ["B"]), ("B", [])] [] = false := by decide
def exMsgs : List DescMessage :=
  [⟨"A", [⟨"child", .message ⟨"B", "f.B", "f"⟩, false, none, false⟩]⟩,
   ⟨"B", [⟨"b", .message ⟨"B", "f.B", "f"⟩, false, none, false⟩]⟩]
example : (analyzeMessageDependencies exMsgs "f").recursiveTypes = ["B", "A"] := by decide
example : (analyzeMessageDependencies exMsgs "f").sortedMessages.map (fun m => m.name) = ["A", "B"] := by decide

/-- One dependency edge: message `a` references message `b` (same file). -/
def Edge (deps : Deps) (a b : String) : Prop := b ∈ lookupDeps deps a

/-- A (possibly empty) walk along dependency edges. -/
inductive Walk (deps : Deps) : String → String → Prop
  | nil (a : String) : Walk deps a a
  | cons {a b c : String} : Edge deps a b → Walk deps b c → Walk deps a c

/-- `v` lies on a cycle: it reaches itself through at least one edge. -/
def SelfReaching (deps : Deps) (v : String) : Prop :=
  ∃ w, Edge deps v w ∧ Walk deps w v

/-- Some message on a cycle is reachable from `n`. -/
def ReachesCycle (deps : Deps) (n : String) : Prop :=
  ∃ v, Walk deps n v ∧ SelfReaching deps v

theorem lookupDeps_key_of_edge {deps : Deps} {a b : String} (h : Edge deps a b) :
    a ∈ deps.map Prod.fst :=
  lookupDeps_key_mem (List.ne_nil_of_mem h)

theorem hasCycle_mono (deps : Deps) :
    ∀ (k : Nat) (n : String) (V V' : List String), unvisitedKeys deps V ≤ k → V ⊆ V' →
      hasCycle n deps V = true → hasCycle n deps V' = true := by
  intro k
  induction k with
  | zero =>
      intro n V V' hk hsub h
      rw [hasCycle_unfold] at h
      by_cases hv : n ∈ V
      · rw [hasCycle_unfold, if_pos (hsub hv)]
      · rw [if_neg hv] at h
        rw [List.any_eq_true] at h
        obtain ⟨d, hd, _⟩ := h
        have hkey : n ∈ deps.map Prod.fst := lookupDeps_key_mem (List.ne_nil_of_mem hd)
        have := unvisitedKeys_cons_lt hkey hv
        omega
  | succ k ih =>
      intro n V V' hk hsub h
      by_cases hv' : n ∈ V'
      · rw [hasCycle_unfold, if_pos hv']
      · have hv : n ∉ V := fun hx => hv' (hsub hx)
        rw [hasCycle_unfold, if_neg hv, List.any_eq_true] at h
        obtain ⟨d, hd, hdc⟩ := h
        have hkey : n ∈ deps.map Prod.fst := lookupDeps_key_mem (List.ne_nil_of_mem hd)
        have hlt := unvisitedKeys_cons_lt hkey hv
        have hsub' : (n :: V) ⊆ (n :: V') := by
          intro x hx
          rcases List.mem_cons.mp hx with h | h
          · exact h ▸ List.mem_cons_self x V'
          · exact List.mem_cons_of_mem n (hsub h)
        have := ih d (n :: V) (n :: V') (by omega) hsub' hdc
        rw [hasCycle_unfold, if_neg hv', List.any_eq_true]
        exact ⟨d, hd, this⟩

theorem hasCycle_step {deps : Deps} {a b : String} {V : List String} (he : Edge deps a b)
    (h : hasCycle b deps (a :: V) = true) : hasCycle a deps V = true := by
  rw [hasCycle_unfold]
  by_cases hv : a ∈ V
  · rw [if_pos hv]
  · rw [if_neg hv, List.any_eq_true]
    exact ⟨b, he, h⟩

theorem hasCycle_walk_lift {deps : Deps} :
    ∀ {a b : String}, Walk deps a b →
      ∀ V : List String, (∀ W, V ⊆ W → hasCycle b deps W = true) →
        hasCycle a deps V = true := by
  intro a b hw
  induction hw with
  | nil a => intro V hb; exact hb V (fun x hx => hx)
  | cons he _ ih =>
      intro V hb
      refine hasCycle_step he (ih _ ?_)
      intro W hW
      refine hb W ?_
      intro x hx
      exact hW (List.mem_cons_of_mem _ hx)

theorem hasCycle_of_selfReaching {deps : Deps} {v : String} (h : SelfReaching deps v) :
    ∀ V, hasCycle v deps V = true := by
  obtain ⟨w, he, hw⟩ := h
  intro V
  rw [hasCycle_unfold]
  by_cases hv : v ∈ V
  · rw [if_pos hv]
  · rw [if_neg hv, List.any_eq_true]
    refine ⟨w, he, ?_⟩
    refine hasCycle_walk_lift hw (v :: V) ?_
    intro W hW
    rw [hasCycle_unfold, if_pos (hW (List.mem_cons_self v V))]

theorem hasCycle_complete {deps : Deps} {n : String} (h : ReachesCycle deps n) :
    hasCycle n deps [] = true := by
  obtain ⟨v, hw, hself⟩ := h
  refine hasCycle_walk_lift hw [] ?_
  intro W _
  exact hasCycle_of_selfReaching hself W

theorem hasCycle_sound (deps : Deps) :
    ∀ (k : Nat) (n : String) (V : List String), unvisitedKeys deps V ≤ k →
      hasCycle n deps V = true →
      (∃ v ∈ V, Walk deps n v) ∨ ReachesCycle deps n := by
  intro k
  induction k with
  | zero =>
      intro n V hk h
      rw [hasCycle_unfold] at h
      by_cases hv : n ∈ V
      · exact Or.inl ⟨n, hv, Walk.nil n⟩
      · rw [if_neg hv, List.any_eq_true] at h
        obtain ⟨d, hd, _⟩ := h
        have hkey : n ∈ deps.map Prod.fst := lookupDeps_key_mem (List.ne_nil_of_mem hd)
        have := unvisitedKeys_cons_lt hkey hv
        omega
  | succ k ih =>
      intro n V hk h
      rw [hasCycle_unfold] at h
      by_cases hv : n ∈ V
      · exact Or.inl ⟨n, hv, Walk.nil n⟩
      · rw [if_neg hv, List.any_eq_true] at h
        obtain ⟨d, hd, hdc⟩ := h
        have hkey : n ∈ deps.map Prod.fst := lookupDeps_key_mem (List.ne_nil_of_mem hd)
        have hlt := unvisitedKeys_cons_lt hkey hv
        rcases ih d (n :: V) (by omega) hdc with ⟨v, hvm, hwalk⟩ | hcyc
        · rcases List.mem_cons.mp hvm with hvn | hvV
          · exact Or.inr ⟨n, Walk.nil n, d, hd, hvn ▸ hwalk⟩
          · exact Or.inl ⟨v, hvV, Walk.cons hd hwalk⟩
        · obtain ⟨v, hwalk, hself⟩ := hcyc
          exact Or.inr ⟨v, Walk.cons hd hwalk, hself⟩

theorem addUnique_mem {l : List String} {x y : String} :
    x ∈ addUnique l y ↔ x ∈ l ∨ x = y := by
  unfold addUnique
  by_cases h : y ∈ l
  · rw [if_pos h]
    constructor
    · exact Or.inl
    · rintro (hx | hx)
      · exact hx
      · exact hx ▸ h
  · rw [if_neg h]
    simp [List.mem_append]

theorem mem_foldl_addUnique_names (l : List DescMessage) :
    ∀ (init : List String) (x : String),
      x ∈ l.foldl (fun acc m => addUnique acc m.name) init ↔
        x ∈ init ∨ ∃ mm ∈ l, mm.name = x := by
  induction l with
  | nil => intro init x; simp
  | cons a l ih =>
      intro init x
      show x ∈ l.foldl _ (addUnique init a.name) ↔ _
      rw [ih]
      rw [addUnique_mem]
      constructor
      · rintro ((h | h) | h)
        · exact Or.inl h
        · exact Or.inr ⟨a, List.mem_cons_self a l, h.symm⟩
        · obtain ⟨mm, hm, he⟩ := h
          exact Or.inr ⟨mm, List.mem_cons_of_mem a hm, he⟩
      · rintro (h | ⟨mm, hm, he⟩)
        · exact Or.inl (Or.inl h)
        · rcases List.mem_cons.mp hm with h1 | h1
          · exact Or.inl (Or.inr (h1 ▸ he).symm)
          · exact Or.inr ⟨mm, h1, he⟩

theorem mem_messageNamesOf {messages : List DescMessage} {mm : DescMessage}
    (h : mm ∈ messages) : mm.name ∈ messageNamesOf messages := by
  unfold messageNamesOf
  rw [mem_foldl_addUnique_names]
  exact Or.inr ⟨mm, h, rfl⟩

theorem messageNamesOf_spec {messages : List DescMessage} {x : String} :
    x ∈ messageNamesOf messages ↔ ∃ mm ∈ messages, mm.name = x := by
  unfold messageNamesOf
  rw [mem_foldl_addUnique_names]
  simp

theorem addDepAssoc_keys (m : Deps) (k d : String) :
    (addDepAssoc m k d).map Prod.fst = m.map Prod.fst := by
  induction m with
  | nil => rfl
  | cons e rest ih =>
      show (if e.1 = k then (e.1, addUnique e.2 d) :: rest else e :: addDepAssoc rest k d).map
          Prod.fst = _
      by_cases h : e.1 = k
      · rw [if_pos h]; rfl
      · rw [if_neg h]
        show e.1 :: (addDepAssoc rest k d).map Prod.fst = e.1 :: rest.map Prod.fst
        rw [ih]

theorem setAssoc_keys_mem (m : Deps) (k : String) (v : List String) (a : String) :
    a ∈ (setAssoc m k v).map Prod.fst ↔ a ∈ m.map Prod.fst ∨ a = k := by
  induction m with
  | nil => simp [setAssoc]
  | cons e rest ih =>
      show a ∈ (if e.1 = k then (k, v) :: rest else e :: setAssoc rest k v).map Prod.fst ↔ _
      by_cases h : e.1 = k
      · rw [if_pos h]
        subst h
        simp only [List.map_cons, List.mem_cons]
        constructor
        · rintro (h1 | h1)
          · exact Or.inr h1
          · exact Or.inl (Or.inr h1)
        · rintro ((h1 | h1) | h1)
          · exact Or.inl h1
          · exact Or.inr h1
          · exact Or.inl h1
      · rw [if_neg h]
        simp only [List.map_cons, List.mem_cons, ih]
        tauto

theorem lookupDeps_cons (e : String × List String) (rest : Deps) (a : String) :
    lookupDeps (e :: rest) a = if e.1 = a then e.2 else lookupDeps rest a := by
  unfold lookupDeps
  by_cases h : e.1 = a
  · rw [if_pos h]
    rw [List.find?_cons_of_pos]
    simpa using h
  · rw [if_neg h]
    rw [List.find?_cons_of_neg]
    simpa using h

theorem lookupDeps_addDepAssoc_mono {m : Deps} {k d a x : String}
    (h : x ∈ lookupDeps m a) : x ∈ lookupDeps (addDepAssoc m k d) a := by
  induction m with
  | nil => simpa [lookupDeps] using h
  | cons e rest ih =>
      show x ∈ lookupDeps (if e.1 = k then (e.1, addUnique e.2 d) :: rest
        else e :: addDepAssoc rest k d) a
      rw [lookupDeps_cons] at h
      by_cases hek : e.1 = k
      · rw [if_pos hek, lookupDeps_cons]
        by_cases hea : e.1 = a
        · rw [if_pos hea]
          rw [if_pos hea] at h
          exact addUnique_mem.mpr (Or.inl h)
        · rw [if_neg hea]
          rw [if_neg hea] at h
          exact h
      · rw [if_neg hek, lookupDeps_cons]
        by_cases hea : e.1 = a
        · rw [if_pos hea]
          rw [if_pos hea] at h
          exact h
        · rw [if_neg hea]
          rw [if_neg hea] at h
          exact ih h

theorem lookupDeps_addDepAssoc_self {m : Deps} {k d : String}
    (hk : k ∈ m.map Prod.fst) : d ∈ lookupDeps (addDepAssoc m k d) k := by
  induction m with
  | nil => cases hk
  | cons e rest ih =>
      show d ∈ lookupDeps (if e.1 = k then (e.1, addUnique e.2 d) :: rest
        else e :: addDepAssoc rest k d) k
      by_cases hek : e.1 = k
      · rw [if_pos hek, lookupDeps_cons, if_pos hek]
        exact addUnique_mem.mpr (Or.inr rfl)
      · rw [if_neg hek, lookupDeps_cons, if_neg hek]
        rw [List.map_cons, List.mem_cons] at hk
        rcases hk with h | h
        · exact absurd h.symm hek
        · exact ih h

theorem setAssoc_mem {m : Deps} {k : String} {v : List String} {e : String × List String} :
    e ∈ setAssoc m k v → e ∈ m ∨ e = (k, v) := by
  induction m with
  | nil =>
      intro h
      rw [show setAssoc [] k v = [(k, v)] from rfl] at h
      exact Or.inr (List.mem_singleton.mp h)
  | cons a rest ih =>
      intro h
      rw [show setAssoc (a :: rest) k v
          = (if a.1 = k then (k, v) :: rest else a :: setAssoc rest k v) from rfl] at h
      by_cases hak : a.1 = k
      · rw [if_pos hak] at h
        rcases List.mem_cons.mp h with h1 | h1
        · exact Or.inr h1
        · exact Or.inl (List.mem_cons_of_mem a h1)
      · rw [if_neg hak] at h
        rcases List.mem_cons.mp h with h1 | h1
        · exact Or.inl (h1 ▸ List.mem_cons_self a rest)
        · rcases ih h1 with h2 | h2
          · exact Or.inl (List.mem_cons_of_mem a h2)
          · exact Or.inr h2

theorem addDepAssoc_values {m : Deps} {k d : String} {e : String × List String} :
    e ∈ addDepAssoc m k d → ∀ x ∈ e.2, (∃ e' ∈ m, x ∈ e'.2) ∨ x = d := by
  induction m with
  | nil =>
      intro h
      simp [addDepAssoc] at h
  | cons a rest ih =>
      intro h x hx
      rw [show addDepAssoc (a :: rest) k d
          = (if a.1 = k then (a.1, addUnique a.2 d) :: rest
             else a :: addDepAssoc rest k d) from rfl] at h
      by_cases hak : a.1 = k
      · rw [if_pos hak] at h
        rcases List.mem_cons.mp h with h1 | h1
        · have : x ∈ addUnique a.2 d := by
            rw [h1] at hx
            exact hx
          rcases addUnique_mem.mp this with h2 | h2
          · exact Or.inl ⟨a, List.mem_cons_self a rest, h2⟩
          · exact Or.inr h2
        · exact Or.inl ⟨e, List.mem_cons_of_mem a h1, hx⟩
      · rw [if_neg hak] at h
        rcases List.mem_cons.mp h with h1 | h1
        · exact Or.inl ⟨e, h1 ▸ List.mem_cons_self a rest, hx⟩
        · rcases ih h1 x hx with ⟨e', he', hxe⟩ | h2
          · exact Or.inl ⟨e', List.mem_cons_of_mem a he', hxe⟩
          · exact Or.inr h2

/-- Invariant preservation through the shared body of the two message-field
branches of the graph-building loop. -/
theorem depStepCore_inv (names : List String) (path owner : String)
    (st : Deps × List String) (ref : MsgRef)
    (h1 : ∀ m ∈ st.2, m ∈ names ∧ Edge st.1 m m)
    (h2 : owner ∈ st.1.map Prod.fst)
    (hvals : ∀ e ∈ st.1, ∀ d ∈ e.2, d ∈ names) :
    ∀ st' : Deps × List String,
      st' = (if names.contains ref.name && (ref.fileName == path) then
              (addDepAssoc st.1 owner ref.name,
               if ref.name == owner then addUnique st.2 owner else st.2)
             else st) →
      (∀ m ∈ st'.2, m ∈ names ∧ Edge st'.1 m m) ∧
      (st'.1.map Prod.fst = st.1.map Prod.fst) ∧
      (∀ e ∈ st'.1, ∀ d ∈ e.2, d ∈ names) := by
  intro st' hst
  by_cases hguard : (names.contains ref.name && (ref.fileName == path)) = true
  · rw [if_pos hguard] at hst
    subst hst
    have hrefnames : ref.name ∈ names := by
      have := (Bool.and_eq_true _ _).mp hguard
      exact List.mem_of_elem_eq_true this.1
    refine ⟨?_, addDepAssoc_keys _ _ _, ?_⟩
    · intro m hm
      by_cases hro : (ref.name == owner) = true
      · rw [if_pos hro] at hm
        have hro' : ref.name = owner := by simpa using hro
        rcases addUnique_mem.mp hm with h | h
        · obtain ⟨hn, he⟩ := h1 m h
          exact ⟨hn, lookupDeps_addDepAssoc_mono he⟩
        · subst h
          refine ⟨hro' ▸ hrefnames, ?_⟩
          show m ∈ lookupDeps (addDepAssoc st.1 m ref.name) m
          have := lookupDeps_addDepAssoc_self (d := ref.name) (hro' ▸ h2)
          exact hro' ▸ this
      · rw [if_neg hro] at hm
        obtain ⟨hn, he⟩ := h1 m hm
        exact ⟨hn, lookupDeps_addDepAssoc_mono he⟩
    · intro e he d hd
      rcases addDepAssoc_values he d hd with ⟨e2, he2, hde⟩ | h
      · exact hvals e2 he2 d hde
      · exact h ▸ hrefnames
  · rw [if_neg hguard] at hst
    subst hst
    exact ⟨h1, rfl, hvals⟩

/-- Invariant preservation through one field of the graph-building loop. -/
theorem depFieldStep_inv (names : List String) (path owner : String)
    (st : Deps × List String) (f : DescField)
    (h1 : ∀ m ∈ st.2, m ∈ names ∧ Edge st.1 m m)
    (h2 : owner ∈ st.1.map Prod.fst)
    (hvals : ∀ e ∈ st.1, ∀ d ∈ e.2, d ∈ names) :
    (∀ m ∈ (depFieldStep names path owner st f).2,
        m ∈ names ∧ Edge (depFieldStep names path owner st f).1 m m) ∧
    ((depFieldStep names path owner st f).1.map Prod.fst = st.1.map Prod.fst) ∧
    (∀ e ∈ (depFieldStep names path owner st f).1, ∀ d ∈ e.2, d ∈ names) := by
  cases hsh : f.shape with
  | message ref =>
      refine depStepCore_inv names path owner st ref h1 h2 hvals _ ?_
      simp only [depFieldStep, hsh]
  | listMessage ref =>
      refine depStepCore_inv names path owner st ref h1 h2 hvals _ ?_
      simp only [depFieldStep, hsh]
  | scalar s => simp only [depFieldStep, hsh]; exact ⟨h1, trivial, hvals⟩
  | enum e => simp only [depFieldStep, hsh]; exact ⟨h1, trivial, hvals⟩
  | listScalar s => simp only [depFieldStep, hsh]; exact ⟨h1, trivial, hvals⟩
  | listEnum e => simp only [depFieldStep, hsh]; exact ⟨h1, trivial, hvals⟩
  | map k v => simp only [depFieldStep, hsh]; exact ⟨h1, trivial, hvals⟩

theorem fieldsFold_inv (names : List String) (path owner : String) (fields : List DescField) :
    ∀ st : Deps × List String,
      (∀ m ∈ st.2, m ∈ names ∧ Edge st.1 m m) →
      owner ∈ st.1.map Prod.fst →
      (∀ e ∈ st.1, ∀ d ∈ e.2, d ∈ names) →
      ((∀ m ∈ (fields.foldl (depFieldStep names path owner) st).2,
          m ∈ names ∧ Edge (fields.foldl (depFieldStep names path owner) st).1 m m) ∧
       ((fields.foldl (depFieldStep names path owner) st).1.map Prod.fst
          = st.1.map Prod.fst) ∧
       (∀ e ∈ (fields.foldl (depFieldStep names path owner) st).1, ∀ d ∈ e.2, d ∈ names)) := by
  induction fields with
  | nil => intro st h1 h2 hvals; exact ⟨h1, rfl, hvals⟩
  | cons f fs ih =>
      intro st h1 h2 hvals
      obtain ⟨g1, g2, g3⟩ := depFieldStep_inv names path owner st f h1 h2 hvals
      have h2' : owner ∈ (depFieldStep names path owner st f).1.map Prod.fst := g2 ▸ h2
      obtain ⟨r1, r2, r3⟩ := ih (depFieldStep names path owner st f) g1 h2' g3
      exact ⟨r1, r2.trans g2, r3⟩

theorem msgsFold_inv (names : List String) (path : String) (l : List DescMessage) :
    ∀ st : Deps × List String,
      (∀ m ∈ st.2, m ∈ names ∧ Edge st.1 m m) →
      (∀ mm ∈ l, mm.name ∈ st.1.map Prod.fst) →
      (∀ e ∈ st.1, ∀ d ∈ e.2, d ∈ names) →
      ((∀ m ∈ (l.foldl
            (fun st msg => msg.fields.foldl (depFieldStep names path msg.name) st) st).2,
          m ∈ names ∧
            Edge (l.foldl
              (fun st msg => msg.fields.foldl (depFieldStep names path msg.name) st) st).1 m m) ∧
       ((l.foldl (fun st msg => msg.fields.foldl (depFieldStep names path msg.name) st)
            st).1.map Prod.fst = st.1.map Prod.fst) ∧
       (∀ e ∈ (l.foldl
            (fun st msg => msg.fields.foldl (depFieldStep names path msg.name) st) st).1,
          ∀ d ∈ e.2, d ∈ names)) := by
  induction l with
  | nil => intro st h1 _ hvals; exact ⟨h1, rfl, hvals⟩
  | cons msg rest ih =>
      intro st h1 h2 hvals
      obtain ⟨g1, g2, g3⟩ := fieldsFold_inv names path msg.name msg.fields st h1
        (h2 msg (List.mem_cons_self msg rest)) hvals
      have h2' : ∀ mm ∈ rest,
          mm.name ∈ (msg.fields.foldl (depFieldStep names path msg.name) st).1.map Prod.fst := by
        intro mm hm
        rw [g2]
        exact h2 mm (List.mem_cons_of_mem msg hm)
      obtain ⟨r1, r2, r3⟩ := ih _ g1 h2' g3
      exact ⟨r1, r2.trans g2, r3⟩

theorem initDeps_fold_keys (l : List DescMessage) :
    ∀ (init : Deps) (a : String),
      a ∈ (l.foldl (fun acc m => setAssoc acc m.name []) init).map Prod.fst ↔
        a ∈ init.map Prod.fst ∨ ∃ mm ∈ l, mm.name = a := by
  induction l with
  | nil => intro init a; simp
  | cons msg rest ih =>
      intro init a
      show a ∈ (rest.foldl _ (setAssoc init msg.name [])).map Prod.fst ↔ _
      rw [ih, setAssoc_keys_mem]
      constructor
      · rintro ((h | h) | h)
        · exact Or.inl h
        · exact Or.inr ⟨msg, List.mem_cons_self msg rest, h.symm⟩
        · obtain ⟨mm, hm, he⟩ := h
          exact Or.inr ⟨mm, List.mem_cons_of_mem msg hm, he⟩
      · rintro (h | ⟨mm, hm, he⟩)
        · exact Or.inl (Or.inl h)
        · rcases List.mem_cons.mp hm with h1 | h1
          · exact Or.inl (Or.inr (h1 ▸ he).symm)
          · exact Or.inr ⟨mm, h1, he⟩

theorem initDeps_keys_mem {messages : List DescMessage} {a : String} :
    a ∈ (initDeps messages).map Prod.fst ↔ a ∈ messageNamesOf messages := by
  unfold initDeps
  rw [initDeps_fold_keys, messageNamesOf_spec]
  simp

theorem initDeps_values (l : List DescMessage) :
    ∀ (init : Deps), (∀ e ∈ init, e.2 = ([] : List String)) →
      ∀ e ∈ l.foldl (fun acc m => setAssoc acc m.name []) init, e.2 = ([] : List String) := by
  induction l with
  | nil => intro init h; exact h
  | cons msg rest ih =>
      intro init h
      refine ih (setAssoc init msg.name []) ?_
      intro e he
      rcases setAssoc_mem he with h1 | h1
      · exact h e h1
      · rw [h1]

/-- The structural facts about the built dependency graph: every seeded
recursive name is a message name with a self-edge, every edge target is a
message name, and the key set is exactly the message-name set. -/
theorem buildGraph_props (messages : List DescMessage) (path : String) :
    (∀ m ∈ (buildDependencyGraph messages path).2,
        m ∈ messageNamesOf messages ∧ Edge (buildDependencyGraph messages path).1 m m) ∧
    (∀ e ∈ (buildDependencyGraph messages path).1, ∀ d ∈ e.2, d ∈ messageNamesOf messages) ∧
    (∀ a, a ∈ (buildDependencyGraph messages path).1.map Prod.fst ↔
        a ∈ messageNamesOf messages) := by
  unfold buildDependencyGraph
  have h0 : ∀ e ∈ initDeps messages, e.2 = ([] : List String) :=
    initDeps_values messages [] (by intro e he; cases he)
  obtain ⟨r1, r2, r3⟩ := msgsFold_inv (messageNamesOf messages) path messages
    (initDeps messages, [])
    (by intro m hm; cases hm)
    (by intro mm hm; exact initDeps_keys_mem.mpr (mem_messageNamesOf hm))
    (by intro e he d hd; rw [h0 e he] at hd; cases hd)
  refine ⟨r1, r3, ?_⟩
  intro a
  rw [r2]
  exact initDeps_keys_mem

theorem recFold_mem (deps : Deps) (names : List String) :
    ∀ (init : List String) (m : String),
      m ∈ names.foldl (fun r n => if hasCycle n deps [] then addUnique r n else r) init ↔
        m ∈ init ∨ (m ∈ names ∧ hasCycle m deps [] = true) := by
  induction names with
  | nil => intro init m; simp
  | cons a rest ih =>
      intro init m
      show m ∈ rest.foldl _ (if hasCycle a deps [] then addUnique init a else init) ↔ _
      rw [ih]
      by_cases hca : hasCycle a deps [] = true
      · rw [if_pos hca, addUnique_mem]
        constructor
        · rintro ((h | h) | h)
          · exact Or.inl h
          · exact Or.inr ⟨h ▸ List.mem_cons_self a rest, h ▸ hca⟩
          · exact Or.inr ⟨List.mem_cons_of_mem a h.1, h.2⟩
        · rintro (h | ⟨hm, hc⟩)
          · exact Or.inl (Or.inl h)
          · rcases List.mem_cons.mp hm with h1 | h1
            · exact Or.inl (Or.inr h1)
            · exact Or.inr ⟨h1, hc⟩
      · rw [if_neg hca]
        constructor
        · rintro (h | h)
          · exact Or.inl h
          · exact Or.inr ⟨List.mem_cons_of_mem a h.1, h.2⟩
        · rintro (h | ⟨hm, hc⟩)
          · exact Or.inl h
          · rcases List.mem_cons.mp hm with h1 | h1
            · exact absurd (h1 ▸ hc) hca
            · exact Or.inr ⟨h1, hc⟩

/-- C1 (amended): `recursiveTypes` contains exactly the messages from which a
cycle is reachable through same-file message-typed references: every message
reachable from itself is included (one half of the original claim), but so is
any message that merely reaches a cycle without lying on one, because the
source's `hasCycle(msgName, deps, new Set())` returns true whenever any cycle
is reachable from `msgName`, not only when `msgName` re-enters its own path. -/
theorem C1_recursiveTypes_reaches_cycle (messages : List DescMessage) (path : String)
    (m : String) :
    m ∈ (analyzeMessageDependencies messages path).recursiveTypes ↔
      (m ∈ messageNamesOf messages ∧
        ReachesCycle (buildDependencyGraph messages path).1 m) := by
  have hrt : (analyzeMessageDependencies messages path).recursiveTypes
      = recursiveTypesOf messages path := rfl
  rw [hrt]
  unfold recursiveTypesOf
  rw [recFold_mem]
  constructor
  · rintro (hseed | ⟨hn, hc⟩)
    · obtain ⟨hn, hedge⟩ := (buildGraph_props messages path).1 m hseed
      exact ⟨hn, m, Walk.nil m, m, hedge, Walk.nil m⟩
    · rcases hasCycle_sound (buildDependencyGraph messages path).1
        (unvisitedKeys (buildDependencyGraph messages path).1 []) m [] le_rfl hc with
        ⟨v, hv, _⟩ | h
      · cases hv
      · exact ⟨hn, h⟩
  · rintro ⟨hn, hcyc⟩
    exact Or.inr ⟨hn, hasCycle_complete hcyc⟩

/-- Counterexample to C1 as stated: in the two-message file \x7bA \x7bchild: B\x7d,
B \x7bb: B\x7d\x7d, message A is placed in `recursiveTypes` although A is not
reachable from itself (nothing references A): the DFS answers true for A
because a cycle (B -> B) is merely reachable from A. -/
theorem C1_counterexample :
    "A" ∈ (analyzeMessageDependencies
        [⟨"A", [⟨"child", .message ⟨"B", "f.B", "f"⟩, false, none, false⟩]⟩,
         ⟨"B", [⟨"b", .message ⟨"B", "f.B", "f"⟩, false, none, false⟩]⟩] "f").recursiveTypes ∧
    ¬ SelfReaching (buildDependencyGraph
        [⟨"A", [⟨"child", .message ⟨"B", "f.B", "f"⟩, false, none, false⟩]⟩,
         ⟨"B", [⟨"b", .message ⟨"B", "f.B", "f"⟩, false, none, false⟩]⟩] "f").1 "A" := by
  constructor
  · decide
  · have hdeps : (buildDependencyGraph
        [⟨"A", [⟨"child", .message ⟨"B", "f.B", "f"⟩, false, none, false⟩]⟩,
         ⟨"B", [⟨"b", .message ⟨"B", "f.B", "f"⟩, false, none, false⟩]⟩] "f").1
        = [("A", ["B"]), ("B", ["B"])] := by decide
    rw [hdeps]
    rintro ⟨w, hew, hwa⟩
    have hwB : w = "B" := by
      have h : w ∈ lookupDeps [("A", ["B"]), ("B", ["B"])] "A" := hew
      rw [show lookupDeps [("A", ["B"]), ("B", ["B"])] "A" = ["B"] from rfl] at h
      exact List.mem_singleton.mp h
    subst hwB
    have honly : ∀ x y : String, Walk [("A", ["B"]), ("B", ["B"])] x y → x = "B" → y = "B" := by
      intro x y hw
      induction hw with
      | nil a => exact fun h => h
      | cons he hw2 ih =>
          intro hx
          rename_i a b c
          subst hx
          have hb : b ∈ lookupDeps [("A", ["B"]), ("B", ["B"])] "B" := he
          rw [show lookupDeps [("A", ["B"]), ("B", ["B"])] "B" = ["B"] from rfl] at hb
          exact ih (List.mem_singleton.mp hb)
    have : "A" = "B" := honly "B" "A" hwa rfl
    simp at this

theorem enum_nodup {α : Type} (l : List α) : l.enum.Nodup := by
  have h : (l.enum.map Prod.fst).Nodup := by
    rw [List.enum_map_fst]
    exact List.nodup_range _
  exact List.Nodup.of_map Prod.fst h

theorem findMsg_spec {imsgs : List (Nat × DescMessage)} {name : String}
    {e : Nat × DescMessage} (h : findMsg imsgs name = some e) :
    e ∈ imsgs ∧ e.2.name = name := by
  unfold findMsg at h
  refine ⟨List.mem_of_find?_eq_some h, ?_⟩
  have := List.find?_some h
  simpa using this

theorem kahnLoop_result_invariant (imsgs : List (Nat × DescMessage)) (deps : Deps)
    (recTypes : List String) :
    ∀ (fuel : Nat) (queue visited : List String) (result : List (Nat × DescMessage)),
      result.Nodup → (∀ im ∈ result, im ∈ imsgs) → (∀ im ∈ result, im.2.name ∈ visited) →
      ((kahnLoop imsgs deps recTypes fuel queue visited result).2.2.Nodup ∧
       (∀ im ∈ (kahnLoop imsgs deps recTypes fuel queue visited result).2.2, im ∈ imsgs) ∧
       (∀ im ∈ (kahnLoop imsgs deps recTypes fuel queue visited result).2.2,
          im.2.name ∈ (kahnLoop imsgs deps recTypes fuel queue visited result).2.1)) := by
  intro fuel
  induction fuel with
  | zero => intro queue visited result h1 h2 h3; exact ⟨h1, h2, h3⟩
  | succ fuel ih =>
      intro queue visited result h1 h2 h3
      match queue with
      | [] => exact ⟨h1, h2, h3⟩
      | name :: rest =>
          show ((kahnLoop imsgs deps recTypes (fuel + 1) (name :: rest) visited result).2.2.Nodup ∧ _)
          rw [kahnLoop]
          by_cases hv : name ∈ visited
          · rw [if_pos hv]
            exact ih rest visited result h1 h2 h3
          · rw [if_neg hv]
            cases hf : findMsg imsgs name with
            | none =>
                refine ih _ _ result h1 h2 ?_
                intro im him
                exact List.mem_append_left _ (h3 im him)
            | some e =>
                obtain ⟨he1, he2⟩ := findMsg_spec hf
                refine ih _ _ (result ++ [e]) ?_ ?_ ?_
                · rw [List.nodup_append]
                  refine ⟨h1, List.nodup_singleton e, ?_⟩
                  intro x hx hxe
                  rw [List.mem_singleton] at hxe
                  subst hxe
                  exact hv (he2 ▸ h3 x hx)
                · intro im him
                  rcases List.mem_append.mp him with h | h
                  · exact h2 im h
                  · rw [List.mem_singleton] at h; subst h; exact he1
                · intro im him
                  rcases List.mem_append.mp him with h | h
                  · exact List.mem_append_left _ (h3 im h)
                  · rw [List.mem_singleton] at h
                    subst h
                    rw [he2]
                    exact List.mem_append_right _ (List.mem_singleton_self name)

theorem appendRemaining_eq (l : List (Nat × DescMessage)) :
    ∀ r : List (Nat × DescMessage), l.Nodup →
      appendRemaining l r = r ++ l.filter (fun x => decide (x ∉ r)) := by
  induction l with
  | nil => intro r _; simp [appendRemaining]
  | cons a l ih =>
      intro r hnd
      rw [List.nodup_cons] at hnd
      obtain ⟨hal, hl⟩ := hnd
      show appendRemaining l (if a ∈ r then r else r ++ [a]) = _
      by_cases har : a ∈ r
      · rw [if_pos har, ih r hl, List.filter_cons]
        simp [har]
      · rw [if_neg har, ih _ hl, List.filter_cons]
        have hfil : l.filter (fun x => decide (x ∉ r ++ [a]))
            = l.filter (fun x => decide (x ∉ r)) := by
          apply List.filter_congr
          intro x hx
          have hxa : x ≠ a := fun h => hal (h ▸ hx)
          simp [List.mem_append, hxa]
        rw [hfil]
        simp [har]

theorem appendRemaining_perm (l r : List (Nat × DescMessage)) (hl : l.Nodup) (hr : r.Nodup)
    (hsub : ∀ x ∈ r, x ∈ l) : (appendRemaining l r).Perm l := by
  rw [appendRemaining_eq l r hl]
  have hnd2 : (r ++ l.filter (fun x => decide (x ∉ r))).Nodup := by
    rw [List.nodup_append]
    refine ⟨hr, List.Nodup.filter _ hl, ?_⟩
    intro x hx hx2
    rw [List.mem_filter] at hx2
    have hxr : x ∉ r := by simpa using hx2.2
    exact hxr hx
  rw [List.perm_ext_iff_of_nodup hnd2 hl]
  intro x
  simp only [List.mem_append, List.mem_filter, decide_eq_true_eq]
  constructor
  · rintro (h | h)
    · exact hsub x h
    · exact h.1
  · intro hx
    by_cases hxr : x ∈ r
    · exact Or.inl hxr
    · exact Or.inr ⟨hx, hxr⟩

/-- C2: for every finite message list and every file path, the resolver is a
total function (the fueled loop provably cannot exhaust its fuel budget) and
the emission order it returns is a permutation of the input messages: every
message appears exactly once, none dropped, none duplicated — including on
dependency graphs made entirely of cycles. -/
theorem C2_emission_order_permutation (messages : List DescMessage) (path : String) :
    ((analyzeMessageDependencies messages path).sortedMessages).Perm messages := by
  unfold analyzeMessageDependencies
  dsimp only
  generalize (buildDependencyGraph messages path).1 = deps
  generalize recursiveTypesOf messages path = recT
  generalize initQueue messages deps recT = q0
  generalize (deps.length + q0.length) * (deps.length + 1) + q0.length + 1 = fuel
  have hinv := kahnLoop_result_invariant messages.enum deps recT fuel q0 [] []
    List.nodup_nil (fun im h => absurd h (List.not_mem_nil im))
    (fun im h => absurd h (List.not_mem_nil im))
  have hperm := appendRemaining_perm messages.enum _ (enum_nodup _) hinv.1 hinv.2.1
  have hmap := hperm.map Prod.snd
  rwa [List.enum_map_snd] at hmap


theorem nonSelfNonRec_mem {recT : List String} {owner : String} {ds : List String}
    {d : String} : d ∈ nonSelfNonRec recT owner ds ↔ d ∈ ds ∧ d ≠ owner ∧ d ∉ recT := by
  unfold nonSelfNonRec
  rw [List.mem_filter]
  simp

theorem lookupDeps_entry {deps : Deps} (hnd : (deps.map Prod.fst).Nodup)
    {e : String × List String} (he : e ∈ deps) : lookupDeps deps e.1 = e.2 := by
  induction deps with
  | nil => cases he
  | cons a rest ih =>
      rw [List.map_cons, List.nodup_cons] at hnd
      rcases List.mem_cons.mp he with h | h
      · subst h
        rw [lookupDeps_cons, if_pos rfl]
      · rw [lookupDeps_cons]
        have hne : a.1 ≠ e.1 := by
          intro hc
          exact hnd.1 (hc ▸ List.mem_map.mpr ⟨e, h, rfl⟩)
        rw [if_neg hne]
        exact ih hnd.2 h

theorem exists_entry_of_key {deps : Deps} {u : String} (h : u ∈ deps.map Prod.fst) :
    ∃ e ∈ deps, e.1 = u := by
  obtain ⟨e, he, hfst⟩ := List.mem_map.mp h
  exact ⟨e, he, hfst⟩

theorem setAssoc_keys_nodup {m : Deps} {k : String} {v : List String}
    (h : (m.map Prod.fst).Nodup) : ((setAssoc m k v).map Prod.fst).Nodup := by
  induction m with
  | nil => simp [setAssoc]
  | cons a rest ih =>
      rw [List.map_cons, List.nodup_cons] at h
      rw [show setAssoc (a :: rest) k v
          = (if a.1 = k then (k, v) :: rest else a :: setAssoc rest k v) from rfl]
      by_cases hak : a.1 = k
      · rw [if_pos hak, List.map_cons, List.nodup_cons]
        exact ⟨hak ▸ h.1, h.2⟩
      · rw [if_neg hak, List.map_cons, List.nodup_cons]
        refine ⟨?_, ih h.2⟩
        intro hc
        rcases (setAssoc_keys_mem rest k v a.1).mp hc with h1 | h1
        · exact h.1 h1
        · exact hak h1

theorem initDeps_keys_nodup (messages : List DescMessage) :
    ((initDeps messages).map Prod.fst).Nodup := by
  unfold initDeps
  have hgen : ∀ (l : List DescMessage) (init : Deps), (init.map Prod.fst).Nodup →
      ((l.foldl (fun acc m => setAssoc acc m.name []) init).map Prod.fst).Nodup := by
    intro l
    induction l with
    | nil => intro init h; exact h
    | cons a rest ih => intro init h; exact ih _ (setAssoc_keys_nodup h)
  exact hgen messages [] (by simp)

theorem buildGraph_keys_nodup (messages : List DescMessage) (path : String) :
    (((buildDependencyGraph messages path).1).map Prod.fst).Nodup := by
  unfold buildDependencyGraph
  obtain ⟨_, r2, _⟩ := msgsFold_inv (messageNamesOf messages) path messages
    (initDeps messages, [])
    (by intro m hm; cases hm)
    (by intro mm hm; exact initDeps_keys_mem.mpr (mem_messageNamesOf hm))
    (by
      intro e he d hd
      have h0 : ∀ e ∈ initDeps messages, e.2 = ([] : List String) :=
        initDeps_values messages [] (by intro e2 he2; cases he2)
      rw [h0 e he] at hd
      cases hd)
  rw [r2]
  exact initDeps_keys_nodup messages

theorem findMsg_isSome_of_name {messages : List DescMessage} {n : String}
    (h : n ∈ messageNamesOf messages) : (findMsg messages.enum n).isSome := by
  obtain ⟨mm, hm, hname⟩ := messageNamesOf_spec.mp h
  unfold findMsg
  rw [List.find?_isSome]
  obtain ⟨i, hget⟩ := List.mem_iff_get.mp hm
  have hilt := i.isLt
  have hlt : (i : Nat) < messages.enum.length := by simpa using i.isLt
  have hmm : messages[(i : Nat)] = mm := by
    rw [← List.get_eq_getElem]
    exact hget
  have hv : messages.enum[(i : Nat)] = ((i : Nat), mm) := by
    rw [List.getElem_enum]
    rw [hmm]
  exact ⟨((i : Nat), mm), hv ▸ List.getElem_mem hlt, by simpa using hname⟩

theorem enum_name_inj {messages : List DescMessage}
    (hnd : (messages.map (fun m => m.name)).Nodup) :
    ∀ a b : Nat × DescMessage, a ∈ messages.enum → b ∈ messages.enum →
      a.2.name = b.2.name → a = b := by
  rintro ⟨i, ma⟩ ⟨j, mb⟩ ha hb hname
  obtain ⟨hi, hma⟩ := List.mem_enum ha
  obtain ⟨hj, hmb⟩ := List.mem_enum hb
  have hi2 : i < (messages.map (fun m => m.name)).length := by simpa using hi
  have hj2 : j < (messages.map (fun m => m.name)).length := by simpa using hj
  have hgi : (messages.map (fun m => m.name))[i] = ma.name := by
    rw [List.getElem_map]
    rw [← hma]
  have hgj : (messages.map (fun m => m.name))[j] = mb.name := by
    rw [List.getElem_map]
    rw [← hmb]
  have hij : i = j := by
    by_contra hne
    exact hne (List.Nodup.getElem_inj_iff hnd |>.mp (by rw [hgi, hgj, hname]))
  subst hij
  have : ma = mb := by rw [hma, hmb]
  rw [this]

/-- Every visited name's non-self non-recursive dependencies occur strictly
earlier in the visited list. -/
def VisitedSound (deps : Deps) (recT : List String) (v : List String) : Prop :=
  ∀ (i : Nat) (hi : i < v.length),
    ∀ d ∈ nonSelfNonRec recT v[i] (lookupDeps deps v[i]), d ∈ v.take i

theorem visitedSound_append {deps : Deps} {recT : List String} {v : List String}
    {name : String} (hvs : VisitedSound deps recT v)
    (hdep : ∀ d ∈ nonSelfNonRec recT name (lookupDeps deps name), d ∈ v) :
    VisitedSound deps recT (v ++ [name]) := by
  intro i hi d hd
  by_cases hlt : i < v.length
  · have hg : (v ++ [name])[i] = v[i] := List.getElem_append_left hlt
    rw [List.take_append_of_le_length (le_of_lt hlt)]
    rw [hg] at hd
    exact hvs i hlt d hd
  · have hieq : i = v.length := by
      rw [List.length_append] at hi
      simp at hi
      omega
    subst hieq
    have hg : (v ++ [name])[v.length] = name := by
      rw [List.getElem_append_right (le_refl v.length)]
      simp
    rw [List.take_left]
    rw [hg] at hd
    exact hdep d hd

theorem mem_take_indexOf {v : List String} {d : String} :
    ∀ {i : Nat}, d ∈ v.take i → v.indexOf d < i := by
  induction v with
  | nil => intro i h; rw [List.take_nil] at h; cases h
  | cons a rest ih =>
      intro i h
      match i with
      | 0 => cases h
      | j + 1 =>
          rw [List.take_succ_cons] at h
          by_cases hda : a = d
          · subst hda
            rw [List.indexOf_cons_self]
            omega
          · rcases List.mem_cons.mp h with h1 | h1
            · exact absurd h1.symm hda
            · rw [List.indexOf_cons_ne _ (by simpa using hda)]
              have := ih h1
              omega

theorem pushCandidates_spec {deps : Deps} {recT : List String} {v : List String}
    {name x : String} (hknd : (deps.map Prod.fst).Nodup)
    (hx : x ∈ pushCandidates deps recT v name) :
    x ∈ deps.map Prod.fst ∧
      (∀ d ∈ nonSelfNonRec recT x (lookupDeps deps x), d ∈ v) := by
  unfold pushCandidates at hx
  obtain ⟨e, he, hfst⟩ := List.mem_map.mp hx
  obtain ⟨hemem, hcond⟩ := List.mem_filter.mp he
  subst hfst
  have hlook : lookupDeps deps e.1 = e.2 := lookupDeps_entry hknd hemem
  refine ⟨List.mem_map.mpr ⟨e, hemem, rfl⟩, ?_⟩
  intro d hd
  rw [hlook] at hd
  have hall := ((Bool.and_eq_true _ _).mp hcond).2
  rw [List.all_eq_true] at hall
  have := hall d hd
  simpa using this

theorem pushCandidates_complete {deps : Deps} {recT : List String} {v : List String}
    {name u : String} (hknd : (deps.map Prod.fst).Nodup)
    (hu : u ∈ deps.map Prod.fst) (huv : u ∉ v)
    (hmem : name ∈ lookupDeps deps u)
    (hdep : ∀ d ∈ nonSelfNonRec recT u (lookupDeps deps u), d ∈ v) :
    u ∈ pushCandidates deps recT v name := by
  obtain ⟨e, he, hfst⟩ := exists_entry_of_key hu
  have hlook : lookupDeps deps e.1 = e.2 := lookupDeps_entry hknd he
  subst hfst
  unfold pushCandidates
  refine List.mem_map.mpr ⟨e, List.mem_filter.mpr ⟨he, ?_⟩, rfl⟩
  rw [Bool.and_eq_true, Bool.and_eq_true]
  refine ⟨⟨?_, ?_⟩, ?_⟩
  · simpa using huv
  · rw [← hlook]
    simpa using hmem
  · rw [List.all_eq_true]
    intro d hd
    rw [← hlook] at hd
    simpa using hdep d hd

theorem pushCandidates_length_le (deps : Deps) (recT : List String) (v : List String)
    (name : String) : (pushCandidates deps recT v name).length ≤ deps.length := by
  unfold pushCandidates
  rw [List.length_map]
  exact List.length_filter_le _ _

theorem unvisitedKeys_append_singleton (deps : Deps) (v : List String) (name : String) :
    unvisitedKeys deps (v ++ [name]) = unvisitedKeys deps (name :: v) := by
  unfold unvisitedKeys
  congr 1
  apply List.filter_congr
  intro x _
  simp only [List.mem_append, List.mem_cons, List.mem_singleton]
  rw [Bool.eq_iff_iff]
  simp
  tauto

/-- Main invariant run of the scheduling loop: with enough fuel, the loop
drains the queue; the visited list (equal to the names of the result, in
order, and duplicate-free) is topologically sound, and on exit no unvisited
key has all its non-self non-recursive dependencies visited. -/
theorem kahnLoop_topo (imsgs : List (Nat × DescMessage)) (deps : Deps) (recT : List String)
    (hknd : (deps.map Prod.fst).Nodup)
    (hfind : ∀ n ∈ deps.map Prod.fst, (findMsg imsgs n).isSome) :
    ∀ (fuel : Nat) (q v : List String) (r : List (Nat × DescMessage)),
      (∀ x ∈ q, x ∈ deps.map Prod.fst ∧
          (∀ d ∈ nonSelfNonRec recT x (lookupDeps deps x), d ∈ v)) →
      VisitedSound deps recT v →
      r.map (fun im => im.2.name) = v →
      (∀ u ∈ deps.map Prod.fst, u ∉ v →
          (∀ d ∈ nonSelfNonRec recT u (lookupDeps deps u), d ∈ v) → u ∈ q) →
      v.Nodup →
      unvisitedKeys deps v * (deps.length + 1) + q.length + 1 ≤ fuel →
      ((kahnLoop imsgs deps recT fuel q v r).1 = [] ∧
       VisitedSound deps recT (kahnLoop imsgs deps recT fuel q v r).2.1 ∧
       (kahnLoop imsgs deps recT fuel q v r).2.2.map (fun im => im.2.name)
          = (kahnLoop imsgs deps recT fuel q v r).2.1 ∧
       (kahnLoop imsgs deps recT fuel q v r).2.1.Nodup ∧
       (∀ u ∈ deps.map Prod.fst, u ∉ (kahnLoop imsgs deps recT fuel q v r).2.1 →
          ¬(∀ d ∈ nonSelfNonRec recT u (lookupDeps deps u),
              d ∈ (kahnLoop imsgs deps recT fuel q v r).2.1))) := by
  intro fuel
  induction fuel with
  | zero =>
      intro q v r _ _ _ _ _ hfuel
      omega
  | succ fuel ih =>
      intro q v r hq hvs hvr hcl hvnd hfuel
      match q with
      | [] =>
          refine ⟨rfl, hvs, hvr, hvnd, ?_⟩
          intro u hu huv hdep
          exact absurd (hcl u hu huv hdep) (List.not_mem_nil u)
      | name :: rest =>
          rw [kahnLoop]
          by_cases hv : name ∈ v
          · rw [if_pos hv]
            refine ih rest v r (fun x hx => hq x (List.mem_cons_of_mem name hx)) hvs hvr
              ?_ hvnd ?_
            · intro u hu huv hdep
              have := hcl u hu huv hdep
              rcases List.mem_cons.mp this with h | h
              · exact absurd (h ▸ hv) huv
              · exact h
            · simp only [List.length_cons] at hfuel
              omega
          · rw [if_neg hv]
            obtain ⟨hnamek, hnamedep⟩ := hq name (List.mem_cons_self name rest)
            obtain ⟨e, hfe⟩ := Option.isSome_iff_exists.mp (hfind name hnamek)
            rw [hfe]
            obtain ⟨hemem, hename⟩ := findMsg_spec hfe
            have hvnd' : (v ++ [name]).Nodup := by
              rw [List.nodup_append]
              exact ⟨hvnd, List.nodup_singleton name,
                fun x hx hxn => hv ((List.mem_singleton.mp hxn) ▸ hx)⟩
            have hUlt : unvisitedKeys deps (v ++ [name]) < unvisitedKeys deps v := by
              rw [unvisitedKeys_append_singleton]
              exact filter_notMem_cons_lt hnamek hv
            have hplen := pushCandidates_length_le deps recT (v ++ [name]) name
            have hq' : ∀ x ∈ rest ++ pushCandidates deps recT (v ++ [name]) name,
                x ∈ deps.map Prod.fst ∧
                  (∀ d ∈ nonSelfNonRec recT x (lookupDeps deps x), d ∈ v ++ [name]) := by
              intro x hx
              rcases List.mem_append.mp hx with h | h
              · obtain ⟨h1, h2⟩ := hq x (List.mem_cons_of_mem name h)
                exact ⟨h1, fun d hd => List.mem_append_left _ (h2 d hd)⟩
              · exact pushCandidates_spec hknd h
            have hvs' : VisitedSound deps recT (v ++ [name]) :=
              visitedSound_append hvs hnamedep
            have hvr' : (r ++ [e]).map (fun im => im.2.name) = v ++ [name] := by
              rw [List.map_append, hvr]
              simp [hename]
            have hcl' : ∀ u ∈ deps.map Prod.fst, u ∉ v ++ [name] →
                (∀ d ∈ nonSelfNonRec recT u (lookupDeps deps u), d ∈ v ++ [name]) →
                u ∈ rest ++ pushCandidates deps recT (v ++ [name]) name := by
              intro u hu huv hdep
              by_cases hnm : name ∈ nonSelfNonRec recT u (lookupDeps deps u)
              · refine List.mem_append_right _ ?_
                exact pushCandidates_complete hknd hu huv (nonSelfNonRec_mem.mp hnm).1 hdep
              · have hdep' : ∀ d ∈ nonSelfNonRec recT u (lookupDeps deps u), d ∈ v := by
                  intro d hd
                  rcases List.mem_append.mp (hdep d hd) with h | h
                  · exact h
                  · exact absurd ((List.mem_singleton.mp h) ▸ hd) hnm
                have huv' : u ∉ v := fun hx => huv (List.mem_append_left _ hx)
                have := hcl u hu huv' hdep'
                rcases List.mem_cons.mp this with h | h
                · refine absurd (List.mem_append_right v ?_) huv
                  rw [h]
                  exact List.mem_singleton_self name
                · exact List.mem_append_left _ h
            have hfuel' : unvisitedKeys deps (v ++ [name]) * (deps.length + 1)
                + (rest ++ pushCandidates deps recT (v ++ [name]) name).length + 1
                ≤ fuel := by
              rw [List.length_append]
              have hmul : (unvisitedKeys deps (v ++ [name]) + 1) * (deps.length + 1)
                  ≤ unvisitedKeys deps v * (deps.length + 1) :=
                Nat.mul_le_mul_right _ (by omega)
              rw [Nat.succ_mul] at hmul
              simp only [List.length_cons] at hfuel
              omega
            exact ih _ _ _ hq' hvs' hvr' hcl' hvnd' hfuel'

/-- The dependency graph restricted to non-self edges not targeting
`recursiveTypes` members is acyclic: witnessed by a rank function that strictly
decreases along every restricted edge. -/
def RestrictedAcyclic (deps : Deps) (recT : List String) : Prop :=
  ∃ rank : String → Nat,
    ∀ u d, d ∈ nonSelfNonRec recT u (lookupDeps deps u) → rank d < rank u

theorem lookupDeps_sub_values {deps : Deps} {u d : String} (h : d ∈ lookupDeps deps u) :
    ∃ e ∈ deps, d ∈ e.2 := by
  unfold lookupDeps at h
  cases hf : deps.find? (fun e => e.1 == u) with
  | none => rw [hf] at h; cases h
  | some e =>
      rw [hf] at h
      exact ⟨e, List.mem_of_find?_eq_some hf, h⟩

theorem initQueue_spec {messages : List DescMessage} {deps : Deps} {recT : List String}
    {x : String} :
    x ∈ initQueue messages deps recT ↔
      ∃ m ∈ messages, m.name = x ∧
        nonSelfNonRec recT x (lookupDeps deps x) = [] := by
  unfold initQueue
  rw [List.mem_map]
  constructor
  · rintro ⟨m, hm, rfl⟩
    obtain ⟨hmem, hemp⟩ := List.mem_filter.mp hm
    exact ⟨m, hmem, rfl, List.isEmpty_iff.mp hemp⟩
  · rintro ⟨m, hm, rfl, hemp⟩
    exact ⟨m, List.mem_filter.mpr ⟨hm, List.isEmpty_iff.mpr hemp⟩, rfl⟩

/-- C3: when the dependency graph restricted to edges that are not self-edges
and do not target `recursiveTypes` members is acyclic, the emission order is a
valid topological order of that restricted graph: every message appears after
all of its non-self, non-recursive same-file dependencies.  (Message names
must be distinct within a file, as the data model stipulates.) -/
theorem C3_topological_order (messages : List DescMessage) (path : String)
    (hnd : (messages.map (fun m => m.name)).Nodup)
    (hacyc : RestrictedAcyclic (buildDependencyGraph messages path).1
      (recursiveTypesOf messages path)) :
    ∀ m ∈ messages,
      ∀ d ∈ lookupDeps (buildDependencyGraph messages path).1 m.name,
        d ≠ m.name → d ∉ recursiveTypesOf messages path →
        ((analyzeMessageDependencies messages path).sortedMessages.map
            (fun x => x.name)).indexOf d
          < ((analyzeMessageDependencies messages path).sortedMessages.map
              (fun x => x.name)).indexOf m.name := by
  intro m hm d hd hne hnr
  have hknd := buildGraph_keys_nodup messages path
  obtain ⟨hseed, hvals, hkeys⟩ := buildGraph_props messages path
  obtain ⟨rank, hrank⟩ := hacyc
  -- abbreviations for the components of the resolver run
  set deps := (buildDependencyGraph messages path).1 with hdeps
  set recT := recursiveTypesOf messages path with hrecT
  set q0 := initQueue messages deps recT with hq0
  set fuel := (deps.length + q0.length) * (deps.length + 1) + q0.length + 1 with hfuel
  set st := kahnLoop messages.enum deps recT fuel q0 [] [] with hst
  have hsorted : (analyzeMessageDependencies messages path).sortedMessages
      = (appendRemaining messages.enum st.2.2).map Prod.snd := rfl
  -- find function succeeds on every key
  have hfind : ∀ n ∈ deps.map Prod.fst, (findMsg messages.enum n).isSome := by
    intro n hn
    exact findMsg_isSome_of_name ((hkeys n).mp hn)
  -- run the loop invariants
  have hq0spec : ∀ x ∈ q0, x ∈ deps.map Prod.fst ∧
      (∀ e ∈ nonSelfNonRec recT x (lookupDeps deps x), e ∈ ([] : List String)) := by
    intro x hx
    obtain ⟨mm, hmm, rfl, hemp⟩ := initQueue_spec.mp hx
    refine ⟨(hkeys mm.name).mpr (mem_messageNamesOf hmm), ?_⟩
    rw [hemp]
    intro e he
    cases he
  have hcl0 : ∀ u ∈ deps.map Prod.fst, u ∉ ([] : List String) →
      (∀ e ∈ nonSelfNonRec recT u (lookupDeps deps u), e ∈ ([] : List String)) → u ∈ q0 := by
    intro u hu _ hdep
    have hemp : nonSelfNonRec recT u (lookupDeps deps u) = [] := by
      rcases hl : nonSelfNonRec recT u (lookupDeps deps u) with _ | ⟨a, rest⟩
      · rfl
      · exact absurd (hdep a (hl ▸ List.mem_cons_self a rest)) (List.not_mem_nil a)
    obtain ⟨mm, hmm, hname⟩ := messageNamesOf_spec.mp ((hkeys u).mp hu)
    exact initQueue_spec.mpr ⟨mm, hmm, hname, hname ▸ hemp⟩
  have hU0 : unvisitedKeys deps ([] : List String) = deps.length := by
    unfold unvisitedKeys
    rw [show (deps.map Prod.fst).filter (fun k => decide (k ∉ ([] : List String)))
        = deps.map Prod.fst by simp]
    exact List.length_map deps Prod.fst
  have hfuelok : unvisitedKeys deps ([] : List String) * (deps.length + 1) + q0.length + 1
      ≤ fuel := by
    rw [hU0, hfuel]
    have : deps.length * (deps.length + 1) ≤ (deps.length + q0.length) * (deps.length + 1) :=
      Nat.mul_le_mul_right _ (by omega)
    omega
  obtain ⟨hqnil, hvsf, hvrf, hvndf, hclf⟩ := kahnLoop_topo messages.enum deps recT hknd hfind
    fuel q0 [] [] hq0spec (by intro i hi; cases hi) rfl hcl0 List.nodup_nil hfuelok
  -- all keys end up visited (completeness under acyclicity)
  have hedgekeys : ∀ u e, e ∈ nonSelfNonRec recT u (lookupDeps deps u) →
      e ∈ deps.map Prod.fst := by
    intro u e he
    obtain ⟨he1, _, _⟩ := nonSelfNonRec_mem.mp he
    obtain ⟨en, hen, hde⟩ := lookupDeps_sub_values he1
    exact (hkeys e).mpr (hvals en hen e hde)
  have hallv : ∀ u ∈ deps.map Prod.fst, u ∈ st.2.1 := by
    have haux : ∀ n u, u ∈ deps.map Prod.fst → u ∉ st.2.1 → rank u < n → False := by
      intro n
      induction n with
      | zero => intro u _ _ h; omega
      | succ n ihn =>
          intro u hu huv hr
          have hnot := hclf u hu huv
          push_neg at hnot
          obtain ⟨e, he, hev⟩ := hnot
          exact ihn e (hedgekeys u e he) hev (by have := hrank u e he; omega)
    intro u hu
    by_contra huv
    exact haux (rank u + 1) u hu huv (Nat.lt_succ_self _)
  -- the loop already produced everything: the append phase is a no-op
  obtain ⟨hrnd, hrsub, _⟩ := kahnLoop_result_invariant messages.enum deps recT
    fuel q0 [] [] List.nodup_nil (fun im h => absurd h (List.not_mem_nil im))
    (fun im h => absurd h (List.not_mem_nil im))
  have happend : appendRemaining messages.enum st.2.2 = st.2.2 := by
    rw [appendRemaining_eq messages.enum st.2.2 (enum_nodup _)]
    rw [show messages.enum.filter (fun x => decide (x ∉ st.2.2)) = [] from ?_]
    · simp
    · rw [List.filter_eq_nil]
      intro im him
      simp only [decide_eq_true_eq, not_not]
      have himm : im.2 ∈ messages := by
        obtain ⟨hlt, heq⟩ := List.mem_enum him
        rw [heq]
        exact List.getElem_mem hlt
      have hname : im.2.name ∈ st.2.1 :=
        hallv im.2.name ((hkeys im.2.name).mpr (mem_messageNamesOf himm))
      rw [← hvrf] at hname
      obtain ⟨im2, him2, hnameeq⟩ := List.mem_map.mp hname
      have : im2 = im := enum_name_inj hnd im2 im (hrsub im2 him2) him hnameeq
      exact this ▸ him2
  -- translate to index positions in the final name list
  have hnames : (analyzeMessageDependencies messages path).sortedMessages.map
      (fun x => x.name) = st.2.1 := by
    rw [hsorted, happend, List.map_map, ← hvrf]
    rfl
  rw [hnames]
  have hmk : m.name ∈ st.2.1 :=
    hallv m.name ((hkeys m.name).mpr (mem_messageNamesOf hm))
  have hilt : st.2.1.indexOf m.name < st.2.1.length := List.indexOf_lt_length.mpr hmk
  have hgeti : st.2.1[st.2.1.indexOf m.name] = m.name := List.getElem_indexOf hilt
  have hdmem : d ∈ nonSelfNonRec recT m.name (lookupDeps deps m.name) :=
    nonSelfNonRec_mem.mpr ⟨hd, hne, hnr⟩
  have htake := hvsf (st.2.1.indexOf m.name) hilt d (by rw [hgeti]; exact hdmem)
  exact mem_take_indexOf htake

/-- Witness for C3 at the spec scenario: A references B, B references nothing;
the emission order is [B, A], neither is recursive, and the theorem applies. -/
theorem C3_topological_order_witness :
    ((analyzeMessageDependencies
        [⟨"A", [⟨"child", .message ⟨"B", "f.B", "f"⟩, false, none, false⟩]⟩,
         ⟨"B", []⟩] "f").sortedMessages.map (fun x => x.name) = ["B", "A"]) ∧
    ((analyzeMessageDependencies
        [⟨"A", [⟨"child", .message ⟨"B", "f.B", "f"⟩, false, none, false⟩]⟩,
         ⟨"B", []⟩] "f").recursiveTypes = []) ∧
    (((analyzeMessageDependencies
        [⟨"A", [⟨"child", .message ⟨"B", "f.B", "f"⟩, false, none, false⟩]⟩,
         ⟨"B", []⟩] "f").sortedMessages.map (fun x => x.name)).indexOf "B"
      < ((analyzeMessageDependencies
        [⟨"A", [⟨"child", .message ⟨"B", "f.B", "f"⟩, false, none, false⟩]⟩,
         ⟨"B", []⟩] "f").sortedMessages.map (fun x => x.name)).indexOf "A") := by
  refine ⟨by decide, by decide, ?_⟩
  have hdeps : (buildDependencyGraph
      [⟨"A", [⟨"child", .message ⟨"B", "f.B", "f"⟩, false, none, false⟩]⟩,
       ⟨"B", []⟩] "f").1 = [("A", ["B"]), ("B", [])] := by decide
  have hrec : recursiveTypesOf
      [⟨"A", [⟨"child", .message ⟨"B", "f.B", "f"⟩, false, none, false⟩]⟩,
       ⟨"B", []⟩] "f" = [] := by decide
  have hacyc : RestrictedAcyclic (buildDependencyGraph
      [⟨"A", [⟨"child", .message ⟨"B", "f.B", "f"⟩, false, none, false⟩]⟩,
       ⟨"B", []⟩] "f").1 (recursiveTypesOf
      [⟨"A", [⟨"child", .message ⟨"B", "f.B", "f"⟩, false, none, false⟩]⟩,
       ⟨"B", []⟩] "f") := by
    refine ⟨fun s => if s = "A" then 1 else 0, ?_⟩
    intro u d hd
    rw [hdeps, hrec] at hd
    by_cases hA : u = "A"
    · subst hA
      rw [show nonSelfNonRec [] "A" (lookupDeps [("A", ["B"]), ("B", [])] "A")
          = ["B"] from rfl] at hd
      rw [List.mem_singleton.mp hd]
      decide
    · by_cases hB : u = "B"
      · subst hB
        rw [show nonSelfNonRec [] "B" (lookupDeps [("A", ["B"]), ("B", [])] "B")
            = [] from rfl] at hd
        cases hd
      · have hlook : lookupDeps [("A", ["B"]), ("B", [])] u = [] := by
          rw [lookupDeps_cons, if_neg (fun h => hA h.symm), lookupDeps_cons,
            if_neg (fun h => hB h.symm)]
          rfl
        rw [hlook] at hd
        cases hd
  have := C3_topological_order
    [⟨"A", [⟨"child", .message ⟨"B", "f.B", "f"⟩, false, none, false⟩]⟩, ⟨"B", []⟩] "f"
    (by decide) hacyc
    ⟨"A", [⟨"child", .message ⟨"B", "f.B", "f"⟩, false, none, false⟩]⟩ (by simp)
    "B" (by rw [hdeps]; decide) (by decide) (by rw [hrec]; exact List.not_mem_nil _)
  exact this
